import Mathlib

/-!
# Elective allocation backend (`backend/controllers/adminController.js`)

A shallow embedding of the admin controller: the batch allocation
`assignElectives`, its companion `clearSubjectsForAllStudents`, and `loginAdmin`.

Modelling conventions.

* A MongoDB collection is a list of documents in natural order; `_id` is a natural
  number (`ObjectId`s are only compared for equality).
* `Model.updateOne({ _id }, ...)` rewrites the first document whose `_id` matches.
* Documents held in memory are JavaScript objects: the array `allSubjects` and the
  `subjectMap` share them.  An object is identified by its position in `allSubjects`.
* `CG` and `seats` are finite numbers; only their order and `- 1` are used, so they are
  integers here.
* The queries collected in `studentUpdates` / `subjectUpdates` are executed together by
  `Promise.all`: each one takes effect atomically on its document, in an order the handler
  does not control.  That order is a `Schedule`, a parameter of `assignElectives`; the
  statements about the repository after the handler hold for every schedule that is a
  reordering of the two queues.
-/

namespace Electives

/-! ## Data model -/

/-- A document of the `Subject` collection (the fields the controller touches). -/
structure Subject where
  id : Nat
  eligibility : List String
  sem : Int
  seats : Int
  default_seats : Int
  students : List Nat
deriving DecidableEq, Repr

/-- A document of the `Student` collection, as loaded by
`Student.find().populate('choices')`: `choices` holds the `_id` of every populated
elective, in the stated order; `subjects` is `null` or a single subject `_id`. -/
structure Student where
  id : Nat
  dept : String
  sem : Int
  CG : Int
  choices : List Nat
  subjects : Option Nat
deriving DecidableEq, Repr

/-- The two collections the controller reads and writes. -/
structure Repo where
  students : List Student
  subjects : List Subject
deriving DecidableEq, Repr

/-- What the handler sends back: `res.status(status).json({ message })`. -/
structure Response where
  status : Nat
  message : String
deriving DecidableEq, Repr

/-- The query `Student.updateOne({ _id: id }, { $set: { subjects } })`. -/
structure StudentUpdate where
  id : Nat
  subjects : Nat
deriving DecidableEq, Repr

/-- The query
`Subject.updateOne({ _id: id }, { $set: { seats }, $push: { students: student } })`. -/
structure SubjectUpdate where
  id : Nat
  seats : Int
  student : Nat
deriving DecidableEq, Repr

/-! ## `assignElectives`: ordering of the students -/

/-- `a.choices && a.choices.length > 0 ? 1 : 0`. -/
def hasChoices (a : Student) : Int :=
  if a.choices.length > 0 then 1 else 0

/-- The comparator handed to `students.sort`. -/
def compareStudents (a b : Student) : Int :=
  if hasChoices b - hasChoices a ≠ 0 then hasChoices b - hasChoices a
  else b.CG - a.CG

/-- The comparator does not put `b` strictly before `a`. -/
def notAfter (a b : Student) : Prop := compareStudents a b ≤ 0

instance : DecidableRel notAfter := fun a b =>
  inferInstanceAs (Decidable (compareStudents a b ≤ 0))

instance : IsTotal Student notAfter where
  total a b := by
    unfold notAfter compareStudents
    split_ifs <;> omega

instance : IsTrans Student notAfter where
  trans a b c := by
    unfold notAfter compareStudents hasChoices
    split_ifs <;> intros <;> omega

/-- `students.sort(compareStudents)`: `Array.prototype.sort` is a stable sort, and a
stable sort by a consistent comparator has one possible result. -/
def sortStudents (students : List Student) : List Student :=
  students.insertionSort notAfter

/-! ## `assignElectives`: the allocation loop -/

/-- `subjectMap.get(key)` for the map built by
`allSubjects.forEach(subject => subjectMap.set(subject._id.toString(), subject))`:
a later `set` with the same key replaces an earlier one.  The result is the object
(its position in `allSubjects`) together with its current content. -/
def subjectMapGet : List Subject → Nat → Option (Nat × Subject)
  | [], _ => none
  | subject :: rest, key =>
    match subjectMapGet rest key with
    | some (i, found) => some (i + 1, found)
    | none => if subject.id = key then some (0, subject) else none

/-- The object at position `i` of an array is replaced by `f` of it. -/
def modifyAt (f : Subject → Subject) : List Subject → Nat → List Subject
  | [], _ => []
  | subject :: rest, 0 => f subject :: rest
  | subject :: rest, i + 1 => subject :: modifyAt f rest i

/-- `subject.students.push(student._id); subject.seats -= 1`. -/
def takeSeat (student : Nat) (subject : Subject) : Subject :=
  { subject with students := subject.students ++ [student], seats := subject.seats - 1 }

/-- The inner loop `for (const elective of student.choices)`: the first elective that is
in `subjectMap` and has `seats > 0`; electives missing from the map are skipped
(`continue`), so are full ones. -/
def scanChoices (allSubjects : List Subject) : List Nat → Option (Nat × Subject)
  | [] => none
  | elective :: rest =>
    match subjectMapGet allSubjects elective with
    | none => scanChoices allSubjects rest
    | some (i, subject) =>
      if subject.seats > 0 then some (i, subject) else scanChoices allSubjects rest

/-- The predicate of `allSubjects.filter(...)` in the fallback branch. -/
def isEligible (student : Student) (subject : Subject) : Bool :=
  subject.eligibility.contains student.dept && decide (subject.sem = student.sem)
    && decide (subject.seats > 0)

/-- The fallback subject `eligibleSubjects[0]` of
`eligibleSubjects = allSubjects.filter(...)`, with its position in `allSubjects`;
`none` when `eligibleSubjects.length` is `0`. -/
def fallbackSubject (student : Student) (allSubjects : List Subject) :
    Option (Nat × Subject) :=
  (allSubjects.enum.filter (fun p => isEligible student p.2)).head?

/-- The variables of the loop: the student documents handled so far (with the
`subjects` field as set in memory), the array `allSubjects`, and the two queues. -/
structure LoopState where
  students : List Student
  allSubjects : List Subject
  studentUpdates : List StudentUpdate
  subjectUpdates : List SubjectUpdate
deriving DecidableEq, Repr

/-- The assignment block shared by the two branches: set `student.subjects`, push the
student and take a seat on the subject object, queue the two updates (the subject
update carries `subject.seats` as it is after the decrement). -/
def assign (st : LoopState) (student : Student) (i : Nat) (subject : Subject) : LoopState :=
  { students := st.students ++ [{ student with subjects := some subject.id }]
    allSubjects := modifyAt (takeSeat student.id) st.allSubjects i
    studentUpdates := st.studentUpdates ++ [⟨student.id, subject.id⟩]
    subjectUpdates := st.subjectUpdates ++ [⟨subject.id, subject.seats - 1, student.id⟩] }

/-- The result of the choices block: `some` exactly when `subjectAssigned` is set. -/
def fromChoices (allSubjects : List Subject) (student : Student) : Option (Nat × Subject) :=
  if student.choices.length > 0 then scanChoices allSubjects student.choices else none

/-- One iteration of `for (const student of students)`. -/
def processStudent (st : LoopState) (student : Student) : LoopState :=
  match fromChoices st.allSubjects student with
  | some (i, subject) => assign st student i subject
  | none =>
    match fallbackSubject student st.allSubjects with
    | some (i, subject) => assign st student i subject
    | none => { st with students := st.students ++ [student] }

/-- The loop run over a list of students, starting from the loaded subjects. -/
def runLoop (allSubjects : List Subject) (students : List Student) : LoopState :=
  students.foldl processStudent ⟨[], allSubjects, [], []⟩

/-! ## Persistence -/

/-- Effect of one queued student update on the collection. -/
def applyStudentUpdate (u : StudentUpdate) : List Student → List Student
  | [] => []
  | s :: rest =>
    if s.id = u.id then { s with subjects := some u.subjects } :: rest
    else s :: applyStudentUpdate u rest

/-- Effect of one queued subject update on the collection. -/
def applySubjectUpdate (u : SubjectUpdate) : List Subject → List Subject
  | [] => []
  | s :: rest =>
    if s.id = u.id then { s with seats := u.seats, students := s.students ++ [u.student] } :: rest
    else s :: applySubjectUpdate u rest

/-- The order in which the queries handed to `Promise.all` take effect: for each of the
two queues, the queue as the database gets to execute it. -/
structure Schedule where
  students : List StudentUpdate → List StudentUpdate
  subjects : List SubjectUpdate → List SubjectUpdate

/-- A schedule executes every queued query once: it only reorders the queues. -/
def Schedule.Valid (σ : Schedule) : Prop :=
  (∀ l, (σ.students l).Perm l) ∧ (∀ l, (σ.subjects l).Perm l)

/-- The queries take effect in the order in which they were queued. -/
def queueOrder : Schedule := ⟨fun l => l, fun l => l⟩

/-- The queries take effect in the opposite order. -/
def reverseOrder : Schedule := ⟨List.reverse, List.reverse⟩

/-- The handler `assignElectives`: load and sort the students, load the subjects, run
the loop, execute the queued updates (`await Promise.all([...studentUpdates,
...subjectUpdates])`, in the order `σ`), answer 200. -/
def assignElectives (σ : Schedule) (db : Repo) : Repo × Response :=
  let students := sortStudents db.students
  let st := runLoop db.subjects students
  ({ students := (σ.students st.studentUpdates).foldl (fun c u => applyStudentUpdate u c)
       db.students
     subjects := (σ.subjects st.subjectUpdates).foldl (fun c u => applySubjectUpdate u c)
       db.subjects },
   ⟨200, "Electives assigned successfully"⟩)

/-! ## `clearSubjectsForAllStudents` -/

/-- One `updateOne` of the bulk write:
`{ filter: { _id }, update: { $set: { seats, students: [] } } }`. -/
def applySubjectReset (u : Nat × Int) : List Subject → List Subject
  | [] => []
  | s :: rest =>
    if s.id = u.1 then { s with seats := u.2, students := [] } :: rest
    else s :: applySubjectReset u rest

/-- The handler `clearSubjectsForAllStudents`: an ordered bulk write with one reset per
subject, then `Student.updateMany({}, { $set: { subjects: null } })`. -/
def clearSubjectsForAllStudents (db : Repo) : Repo × Response :=
  let subjectUpdates := db.subjects.map (fun subject => (subject.id, subject.default_seats))
  ({ students := db.students.map (fun s => { s with subjects := none })
     subjects := subjectUpdates.foldl (fun c u => applySubjectReset u c) db.subjects },
   ⟨200, "Subjects cleared for all students, and seats reset successfully."⟩)

/-! ## `loginAdmin` -/

/-- A document of the `Admin` collection: `password` is the stored bcrypt hash. -/
structure Admin where
  id : Nat
  email : String
  password : String
deriving DecidableEq, Repr

/-- What `loginAdmin` sends back: `{ message }` or `{ token }` with a status. -/
inductive LoginResponse where
  | message (status : Nat) (text : String)
  | token (status : Nat) (jwt : String)
deriving DecidableEq, Repr

/-- A JavaScript promise object holding the value it will resolve to. -/
structure Promise (α : Type) where
  resolvesTo : α

/-- Truthiness of a promise in a condition such as `!p`: a promise is an object, and
every object is truthy, whatever it resolves to. -/
def Promise.truthy {α : Type} (_ : Promise α) : Bool := true

/-- `email.toLowerCase()` on ASCII letters (other characters are kept as they are). -/
def toLowerCase (s : String) : String := ⟨s.data.map Char.toLower⟩

/-- The handler `loginAdmin`.  `compare` is bcrypt's check of a password against a hash
and `sign` is `jwt.sign` on the admin's id.  `bcrypt.compare(password, admin.password)`
is called with no callback and is not awaited, so `isPasswordCorrect` is the promise. -/
def loginAdmin (compare : String → String → Bool) (sign : Nat → String)
    (admins : List Admin) (email password : String) : LoginResponse :=
  match admins.find? (fun a => a.email == toLowerCase email) with
  | none => .message 404 "Admin not found"
  | some admin =>
    let isPasswordCorrect : Promise Bool := ⟨compare password admin.password⟩
    if !isPasswordCorrect.truthy then .message 400 "Invalid credentials"
    else .token 200 (sign admin.id)

/-! ## Concrete repository states -/

/-- The scenario of the specification: Alice (id 1) prefers S1, Bob (id 2) states no
preference; CG is in tenths. -/
def scenario : Repo :=
  { students :=
      [ ⟨1, "CS", 3, 80, [1], none⟩,
        ⟨2, "CS", 3, 95, [], none⟩ ]
    subjects :=
      [ ⟨1, ["CS"], 3, 1, 1, []⟩,
        ⟨2, ["CS", "EE"], 3, 1, 1, []⟩ ] }

/-- Two students who both list subject 1, which has two seats. -/
def twoForOne : Repo :=
  { students :=
      [ ⟨1, "CS", 3, 90, [1], none⟩,
        ⟨2, "CS", 3, 80, [1], none⟩ ]
    subjects := [ ⟨1, ["CS"], 3, 2, 2, []⟩ ] }

/-- Subject 1 has three seats by default; an earlier allocation already gave one of them
to student 1 (the state `assignElectives` leaves when run on the reset state). -/
def alreadyAllocated : Repo :=
  { students := [ ⟨1, "CS", 3, 80, [1], some 1⟩ ]
    subjects := [ ⟨1, ["CS"], 3, 2, 3, [1]⟩ ] }

/-- Student 1 lists subject 1, which has no seat, then subject 2, which has one. -/
def firstChoiceFull : Repo :=
  { students := [ ⟨1, "CS", 3, 80, [1, 2], none⟩ ]
    subjects := [ ⟨1, ["CS"], 3, 0, 0, []⟩, ⟨2, ["CS"], 3, 1, 1, []⟩ ] }

/-- A freshly reset state in which student 1 (dept CS, sem 3) lists subject 2 only, a
subject open to dept EE in sem 5. -/
def ineligibleChoice : Repo :=
  { students := [ ⟨1, "CS", 3, 80, [2], none⟩ ]
    subjects := [ ⟨1, ["CS"], 3, 1, 1, []⟩, ⟨2, ["EE"], 5, 1, 1, []⟩ ] }

/-- Student 2 holds the only seat of subject 1 from an earlier allocation; student 1, with
the higher CG, lists subject 1 as well (a choice stated after that allocation). -/
def seatTaken : Repo :=
  { students :=
      [ ⟨1, "CS", 3, 90, [1], none⟩,
        ⟨2, "CS", 3, 80, [1], some 1⟩ ]
    subjects := [ ⟨1, ["CS"], 3, 0, 1, [2]⟩ ] }

/-- One registered admin; the stored hash is that of the password `secret`. -/
def storedAdmins : List Admin := [⟨1, "admin@example.com", "hash(secret)"⟩]

/-- A stand-in for bcrypt's check: the hash of `p` is `hash(p)`. -/
def demoCompare (password hash : String) : Bool := hash == "hash(" ++ password ++ ")"

/-- A stand-in for `jwt.sign`. -/
def demoSign (id : Nat) : String := if id = 1 then "jwt-for-admin-1" else "jwt"

/-! ## Specification-side notions -/

/-- The capacity invariant: `seats >= 0` and
`students.length = default_seats - seats` for every subject. -/
def CapacityInv (subjects : List Subject) : Prop :=
  ∀ s ∈ subjects, 0 ≤ s.seats ∧ (s.students.length : Int) = s.default_seats - s.seats

instance (subjects : List Subject) : Decidable (CapacityInv subjects) := by
  unfold CapacityInv; exact inferInstance

/-- Every `_id` of the collection occurs once (MongoDB's unique index on `_id`). -/
def UniqueIds (db : Repo) : Prop :=
  (db.students.map Student.id).Nodup ∧ (db.subjects.map Subject.id).Nodup

instance (db : Repo) : Decidable (UniqueIds db) := by
  unfold UniqueIds; exact inferInstance

/-- A choice can be honoured: it is in the lookup and has a free seat. -/
def satisfiable (allSubjects : List Subject) (c : Nat) : Bool :=
  match subjectMapGet allSubjects c with
  | some (_, subject) => decide (subject.seats > 0)
  | none => false

/-- A subject with `seats = default_seats` and an empty `students` list, every other
field untouched. -/
def resetSubject (s : Subject) : Subject :=
  { s with seats := s.default_seats, students := [] }

/-- A student with `subjects = null`, every other field untouched. -/
def resetStudent (s : Student) : Student :=
  { s with subjects := none }

/-- The freshly reset state of a repository. -/
def resetState (db : Repo) : Repo :=
  { students := db.students.map resetStudent, subjects := db.subjects.map resetSubject }

/-- A freshly reset state: every subject has `seats = default_seats` and no students,
every student has `subjects = null`. -/
def Fresh (db : Repo) : Prop :=
  (∀ s ∈ db.subjects, s.seats = s.default_seats ∧ s.students = []) ∧
  (∀ s ∈ db.students, s.subjects = none)

instance (db : Repo) : Decidable (Fresh db) := by
  unfold Fresh; exact inferInstance

/-- At most one assignment, mirrored: a student's `subjects` is `null` or the `_id` of a
subject of the repository, and the student's `_id` occurs once in the `students` list of
that subject and in the list of no other subject (in none at all when `subjects` is
`null`). -/
def MirrorInv (db : Repo) : Prop :=
  ∀ s ∈ db.students,
    (s.subjects = none ∨ ∃ subject ∈ db.subjects, s.subjects = some subject.id) ∧
    ∀ subject ∈ db.subjects,
      subject.students.count s.id = if s.subjects = some subject.id then 1 else 0

instance (db : Repo) : Decidable (MirrorInv db) := by
  unfold MirrorInv; exact inferInstance

/-- The subject a student holds in a repository state (`null` as `none`). -/
def assignedSubject (db : Repo) (student : Nat) : Option Nat :=
  (db.students.find? (fun s => s.id == student)).bind Student.subjects

/-- Student `a` outranks student `b`: `a` has a stated choice and `b` has none; or both
are in the same has-choices group and `a.CG > b.CG`; or they tie on both and `a` was
loaded before `b`. -/
def Outranks (loaded : List Student) (a b : Student) : Prop :=
  (a.choices ≠ [] ∧ b.choices = []) ∨
  ((a.choices = [] ↔ b.choices = []) ∧ b.CG < a.CG) ∨
  ((a.choices = [] ↔ b.choices = []) ∧ a.CG = b.CG ∧ [a, b].Sublist loaded)

/-! ## Proof tools: the loop seen through the subjects alone -/

/-- A subject document after a list of updates, each applied if its `_id` matches. -/
def landOn (s : Subject) (ws : List SubjectUpdate) : Subject :=
  ws.foldl (fun s w =>
    if s.id = w.id then { s with seats := w.seats, students := s.students ++ [w.student] }
    else s) s

/-- A student document after a list of updates, each applied if its `_id` matches. -/
def writeTo (s : Student) (us : List StudentUpdate) : Student :=
  us.foldl (fun s u => if s.id = u.id then { s with subjects := some u.subjects } else s) s

/-- The fields of a subject that the loop never writes. -/
def Subject.fixed (s : Subject) : Nat × List String × Int × Int :=
  (s.id, s.eligibility, s.sem, s.default_seats)

/-- The subject a student gets: from the choices, else the fallback. -/
def choose (allSubjects : List Subject) (student : Student) : Option (Nat × Subject) :=
  match fromChoices allSubjects student with
  | some r => some r
  | none => fallbackSubject student allSubjects

/-- The array `allSubjects` after one iteration. -/
def stepSubjects (allSubjects : List Subject) (student : Student) : List Subject :=
  match choose allSubjects student with
  | some (i, _) => modifyAt (takeSeat student.id) allSubjects i
  | none => allSubjects

/-- The student updates queued while a list of students is processed. -/
def updatesOf : List Subject → List Student → List StudentUpdate
  | _, [] => []
  | subs, s :: rest =>
    match choose subs s with
    | some (_, subject) => ⟨s.id, subject.id⟩ :: updatesOf (stepSubjects subs s) rest
    | none => updatesOf (stepSubjects subs s) rest

/-! ## Basic facts -/

/-- The scenario of the specification: Alice is assigned S1, Bob falls back to S2, and
both subjects end with no seat left. -/
theorem scenario_outcome :
    (assignElectives reverseOrder scenario).1 =
      { students := [ ⟨1, "CS", 3, 80, [1], some 1⟩, ⟨2, "CS", 3, 95, [], some 2⟩ ]
        subjects := [ ⟨1, ["CS"], 3, 0, 1, [1]⟩, ⟨2, ["CS", "EE"], 3, 0, 1, [2]⟩ ] } := by
  decide

theorem processStudent_eq (st : LoopState) (student : Student) :
    processStudent st student =
      match choose st.allSubjects student with
      | some (i, subject) => assign st student i subject
      | none => { st with students := st.students ++ [student] } := by
  unfold processStudent choose
  cases h : fromChoices st.allSubjects student with
  | some r => rfl
  | none => simp only []

theorem modifyAt_getElem? (f : Subject → Subject) (l : List Subject) (i j : Nat) :
    (modifyAt f l i)[j]? = if j = i then l[j]?.map f else l[j]? := by
  induction l generalizing i j with
  | nil => simp [modifyAt]
  | cons s rest ih =>
    cases i with
    | zero => cases j <;> simp [modifyAt]
    | succ i => cases j <;> simp [modifyAt, ih]

theorem modifyAt_map_fixed (x : Nat) (l : List Subject) (i : Nat) :
    (modifyAt (takeSeat x) l i).map Subject.fixed = l.map Subject.fixed := by
  induction l generalizing i with
  | nil => rfl
  | cons s rest ih => cases i <;> simp [modifyAt, ih, takeSeat, Subject.fixed]

theorem map_id_of_fixed {l l' : List Subject}
    (h : l'.map Subject.fixed = l.map Subject.fixed) :
    l'.map Subject.id = l.map Subject.id := by
  have := congrArg (List.map Prod.fst) h
  simpa [List.map_map, Function.comp_def, Subject.fixed] using this

/-- The state `alreadyAllocated` is what one allocation leaves behind. -/
theorem alreadyAllocated_reached :
    (assignElectives queueOrder (resetState alreadyAllocated)).1 = alreadyAllocated := by
  decide

/-! ### The subject lookup -/

theorem subjectMapGet_some {l : List Subject} {key i : Nat} {s : Subject}
    (h : subjectMapGet l key = some (i, s)) : l[i]? = some s ∧ s.id = key := by
  induction l generalizing i with
  | nil => simp [subjectMapGet] at h
  | cons a rest ih =>
    unfold subjectMapGet at h
    cases hr : subjectMapGet rest key with
    | some r =>
      obtain ⟨j, t⟩ := r
      rw [hr] at h
      simp only [Option.some.injEq, Prod.mk.injEq] at h
      obtain ⟨rfl, rfl⟩ := h
      simpa using ih hr
    | none =>
      rw [hr] at h
      by_cases ha : a.id = key
      · simp only [ha, if_true, Option.some.injEq, Prod.mk.injEq] at h
        obtain ⟨rfl, rfl⟩ := h
        simp [ha]
      · simp [ha] at h

theorem subjectMapGet_none {l : List Subject} {key : Nat} :
    subjectMapGet l key = none ↔ ∀ s ∈ l, s.id ≠ key := by
  induction l with
  | nil => simp [subjectMapGet]
  | cons a rest ih =>
    unfold subjectMapGet
    cases hr : subjectMapGet rest key with
    | some r =>
      obtain ⟨j, t⟩ := r
      have := subjectMapGet_some hr
      have hmem : t ∈ rest := List.getElem?_mem this.1
      simp only [reduceCtorEq, false_iff, not_forall]
      exact ⟨t, List.mem_cons_of_mem _ hmem, fun hne => hne this.2⟩
    | none =>
      have hrest := ih.mp hr
      by_cases ha : a.id = key
      · simp [ha]
      · simp only [ha, if_false, true_iff]
        intro s hs
        rcases List.mem_cons.mp hs with rfl | hs
        · exact ha
        · exact hrest s hs

theorem subjectMapGet_of_nodup {l : List Subject} (hnd : (l.map Subject.id).Nodup)
    {i : Nat} {s : Subject} (h : l[i]? = some s) : subjectMapGet l s.id = some (i, s) := by
  induction l generalizing i with
  | nil => simp at h
  | cons a rest ih =>
    simp only [List.map_cons, List.nodup_cons, List.mem_map, not_exists, not_and] at hnd
    cases i with
    | zero =>
      simp only [List.getElem?_cons_zero, Option.some.injEq] at h
      subst h
      have hn : subjectMapGet rest a.id = none :=
        subjectMapGet_none.mpr (fun t ht => hnd.1 t ht)
      simp [subjectMapGet, hn]
    | succ j =>
      simp only [List.getElem?_cons_succ] at h
      simp [subjectMapGet, ih hnd.2 h]

/-! ### The scan of the choices -/

theorem scanChoices_eq_find (l : List Subject) (cs : List Nat) :
    scanChoices l cs =
      match cs.find? (satisfiable l) with
      | some c => subjectMapGet l c
      | none => none := by
  induction cs with
  | nil => rfl
  | cons c rest ih =>
    unfold scanChoices
    cases hc : subjectMapGet l c with
    | none =>
      have : satisfiable l c = false := by simp [satisfiable, hc]
      simp [List.find?_cons, this, ih]
    | some r =>
      obtain ⟨i, s⟩ := r
      by_cases hs : s.seats > 0
      · have : satisfiable l c = true := by simp [satisfiable, hc, hs]
        simp [List.find?_cons, this, hs, hc]
      · have : satisfiable l c = false := by simp [satisfiable, hc, hs]
        simp [List.find?_cons, this, hs, ih]

theorem scanChoices_some {l : List Subject} {cs : List Nat} {i : Nat} {s : Subject}
    (h : scanChoices l cs = some (i, s)) :
    l[i]? = some s ∧ 0 < s.seats ∧ s.id ∈ cs ∧ subjectMapGet l s.id = some (i, s) := by
  rw [scanChoices_eq_find] at h
  cases hf : cs.find? (satisfiable l) with
  | none => simp [hf] at h
  | some c =>
    rw [hf] at h
    simp only at h
    have hsat := List.find?_some hf
    have hmem := List.mem_of_find?_eq_some hf
    have hget := subjectMapGet_some h
    simp only [satisfiable, h, decide_eq_true_eq] at hsat
    refine ⟨hget.1, hsat, ?_, ?_⟩
    · rw [hget.2]; exact hmem
    · rw [hget.2]; exact h

/-! ### The fallback -/

theorem head_filter_enumFrom (q : Subject → Bool) (l : List Subject) (n : Nat) :
    ((l.enumFrom (n + 1)).filter (fun p => q p.2)).head? =
      (((l.enumFrom n).filter (fun p => q p.2)).head?).map (fun p => (p.1 + 1, p.2)) := by
  induction l generalizing n with
  | nil => rfl
  | cons a rest ih =>
    simp only [List.enumFrom_cons]
    by_cases ha : q a = true
    · simp [List.filter_cons, ha]
    · simp [List.filter_cons, ha, ih]

theorem fallbackSubject_nil (student : Student) : fallbackSubject student [] = none := rfl

theorem fallbackSubject_cons (student : Student) (a : Subject) (rest : List Subject) :
    fallbackSubject student (a :: rest) =
      if isEligible student a = true then some (0, a)
      else (fallbackSubject student rest).map (fun p => (p.1 + 1, p.2)) := by
  unfold fallbackSubject
  simp only [List.enum, List.enumFrom_cons]
  by_cases ha : isEligible student a = true
  · simp [List.filter_cons, ha]
  · have := head_filter_enumFrom (isEligible student) rest 0
    simp only [Nat.zero_add] at this
    simp [List.filter_cons, ha, this]

theorem fallbackSubject_some {student : Student} {l : List Subject} {i : Nat} {s : Subject}
    (h : fallbackSubject student l = some (i, s)) :
    l[i]? = some s ∧ isEligible student s = true ∧
      ∀ j t, j < i → l[j]? = some t → isEligible student t = false := by
  induction l generalizing i with
  | nil => simp [fallbackSubject_nil] at h
  | cons a rest ih =>
    rw [fallbackSubject_cons] at h
    by_cases ha : isEligible student a = true
    · simp only [ha, if_true, Option.some.injEq, Prod.mk.injEq] at h
      obtain ⟨rfl, rfl⟩ := h
      exact ⟨by simp, ha, fun j t hj _ => absurd hj (Nat.not_lt_zero j)⟩
    · simp only [ha, Bool.false_eq_true, if_false, Option.map_eq_some', Prod.mk.injEq,
        Prod.exists] at h
      obtain ⟨j, t, hjt, rfl, rfl⟩ := h
      obtain ⟨h1, h2, h3⟩ := ih hjt
      refine ⟨by simpa using h1, h2, ?_⟩
      intro k u hk hu
      cases k with
      | zero =>
        simp only [List.getElem?_cons_zero, Option.some.injEq] at hu
        subst hu
        simpa using ha
      | succ k =>
        simp only [List.getElem?_cons_succ] at hu
        exact h3 k u (by omega) hu

theorem fallbackSubject_none {student : Student} {l : List Subject} :
    fallbackSubject student l = none ↔ ∀ s ∈ l, isEligible student s = false := by
  induction l with
  | nil => simp [fallbackSubject_nil]
  | cons a rest ih =>
    rw [fallbackSubject_cons]
    by_cases ha : isEligible student a = true
    · simp [ha]
    · simp only [ha, Bool.false_eq_true, if_false, Option.map_eq_none', ih, List.mem_cons,
        forall_eq_or_imp]
      simp only [Bool.not_eq_true] at ha
      simp [ha]

/-! ### One iteration -/

theorem choose_some {l : List Subject} {student : Student} {i : Nat} {s : Subject}
    (h : choose l student = some (i, s)) :
    l[i]? = some s ∧ 0 < s.seats ∧
      ((student.choices ≠ [] ∧ scanChoices l student.choices = some (i, s)) ∨
        (fromChoices l student = none ∧ fallbackSubject student l = some (i, s))) := by
  unfold choose at h
  cases hc : fromChoices l student with
  | some r =>
    rw [hc] at h
    simp only [Option.some.injEq] at h
    subst h
    unfold fromChoices at hc
    by_cases hlen : student.choices.length > 0
    · simp only [hlen, if_true] at hc
      have := scanChoices_some hc
      exact ⟨this.1, this.2.1, Or.inl ⟨List.ne_nil_of_length_pos hlen, hc⟩⟩
    · simp [hlen] at hc
  | none =>
    rw [hc] at h
    simp only at h
    have := fallbackSubject_some h
    have hel := this.2.1
    simp only [isEligible, Bool.and_eq_true, decide_eq_true_eq] at hel
    exact ⟨this.1, hel.2, Or.inr ⟨rfl, h⟩⟩

theorem mem_modifyAt {f : Subject → Subject} {l : List Subject} {i : Nat} {t : Subject}
    (h : t ∈ modifyAt f l i) : t ∈ l ∨ ∃ s, l[i]? = some s ∧ t = f s := by
  induction l generalizing i with
  | nil => simp [modifyAt] at h
  | cons a rest ih =>
    cases i with
    | zero =>
      simp only [modifyAt, List.mem_cons] at h
      rcases h with rfl | h
      · exact Or.inr ⟨a, by simp, rfl⟩
      · exact Or.inl (List.mem_cons_of_mem _ h)
    | succ j =>
      simp only [modifyAt, List.mem_cons] at h
      rcases h with rfl | h
      · exact Or.inl (List.mem_cons_self _ _)
      · rcases ih h with h | ⟨s, hs, rfl⟩
        · exact Or.inl (List.mem_cons_of_mem _ h)
        · exact Or.inr ⟨s, by simpa using hs, rfl⟩

theorem stepSubjects_map_fixed (l : List Subject) (student : Student) :
    (stepSubjects l student).map Subject.fixed = l.map Subject.fixed := by
  unfold stepSubjects
  cases choose l student with
  | none => rfl
  | some r => exact modifyAt_map_fixed _ _ _

theorem stepSubjects_capacity {l : List Subject} (student : Student) (h : CapacityInv l) :
    CapacityInv (stepSubjects l student) := by
  unfold stepSubjects
  cases hc : choose l student with
  | none => exact h
  | some r =>
    obtain ⟨i, s⟩ := r
    obtain ⟨hi, hpos, -⟩ := choose_some hc
    intro t ht
    rcases mem_modifyAt ht with ht | ⟨s', hs', rfl⟩
    · exact h t ht
    · rw [hi] at hs'
      simp only [Option.some.injEq] at hs'
      subst hs'
      have := h s (List.getElem?_mem hi)
      simp only [takeSeat, List.length_append, List.length_singleton, Nat.cast_add,
        Nat.cast_one]
      omega

/-! ### The whole loop -/

theorem foldl_processStudent_inv (P : LoopState → Prop)
    (hstep : ∀ st s, P st → P (processStudent st s)) :
    ∀ (l : List Student) (st : LoopState), P st → P (l.foldl processStudent st) := by
  intro l
  induction l with
  | nil => intro st h; exact h
  | cons a rest ih => intro st h; exact ih _ (hstep st a h)

theorem processStudent_allSubjects (st : LoopState) (student : Student) :
    (processStudent st student).allSubjects = stepSubjects st.allSubjects student := by
  rw [processStudent_eq]
  unfold stepSubjects
  cases choose st.allSubjects student with
  | none => rfl
  | some r => rfl

theorem foldl_allSubjects (l : List Student) (st : LoopState) :
    (l.foldl processStudent st).allSubjects = l.foldl stepSubjects st.allSubjects := by
  induction l generalizing st with
  | nil => rfl
  | cons a rest ih => simp only [List.foldl_cons, ih, processStudent_allSubjects]

theorem updatesOf_cons (subs : List Subject) (s : Student) (rest : List Student) :
    updatesOf subs (s :: rest) =
      match choose subs s with
      | some (_, subject) => ⟨s.id, subject.id⟩ :: updatesOf (stepSubjects subs s) rest
      | none => updatesOf (stepSubjects subs s) rest := rfl

theorem foldl_studentUpdates (l : List Student) (st : LoopState) :
    (l.foldl processStudent st).studentUpdates =
      st.studentUpdates ++ updatesOf st.allSubjects l := by
  induction l generalizing st with
  | nil => simp [updatesOf]
  | cons a rest ih =>
    simp only [List.foldl_cons, ih, processStudent_allSubjects]
    rw [processStudent_eq, updatesOf_cons]
    cases choose st.allSubjects a with
    | none => rfl
    | some r => simp [assign]

theorem foldl_stepSubjects_fixed (l : List Student) (subs : List Subject) :
    (l.foldl stepSubjects subs).map Subject.fixed = subs.map Subject.fixed := by
  induction l generalizing subs with
  | nil => rfl
  | cons a rest ih => simp only [List.foldl_cons, ih, stepSubjects_map_fixed]

theorem foldl_stepSubjects_capacity (l : List Student) {subs : List Subject}
    (h : CapacityInv subs) : CapacityInv (l.foldl stepSubjects subs) := by
  induction l generalizing subs with
  | nil => exact h
  | cons a rest ih => exact ih (stepSubjects_capacity a h)

/-! ### Writes landing in queue order reproduce the subjects in memory -/

theorem applySubjectUpdate_eq_modifyAt {l : List Subject} (hnd : (l.map Subject.id).Nodup)
    {i : Nat} {s : Subject} (h : l[i]? = some s) (x : Nat) :
    applySubjectUpdate ⟨s.id, s.seats - 1, x⟩ l = modifyAt (takeSeat x) l i := by
  induction l generalizing i with
  | nil => simp at h
  | cons a rest ih =>
    simp only [List.map_cons, List.nodup_cons, List.mem_map, not_exists, not_and] at hnd
    cases i with
    | zero =>
      simp only [List.getElem?_cons_zero, Option.some.injEq] at h
      subst h
      simp [applySubjectUpdate, modifyAt, takeSeat]
    | succ j =>
      simp only [List.getElem?_cons_succ] at h
      have hne : a.id ≠ s.id := fun e => hnd.1 s (List.getElem?_mem h) e.symm
      simp [applySubjectUpdate, modifyAt, hne, ih hnd.2 h]

theorem persisted_subjects {subs : List Subject} (hnd : (subs.map Subject.id).Nodup)
    (students : List Student) :
    (runLoop subs students).subjectUpdates.foldl (fun c u => applySubjectUpdate u c) subs =
      (runLoop subs students).allSubjects := by
  have key : ∀ st : LoopState,
      (st.allSubjects.map Subject.fixed = subs.map Subject.fixed ∧
        st.subjectUpdates.foldl (fun c u => applySubjectUpdate u c) subs = st.allSubjects) →
      ∀ s, ((processStudent st s).allSubjects.map Subject.fixed = subs.map Subject.fixed ∧
        (processStudent st s).subjectUpdates.foldl (fun c u => applySubjectUpdate u c) subs =
          (processStudent st s).allSubjects) := by
    intro st ⟨hfix, hper⟩ s
    refine ⟨by rw [processStudent_allSubjects, stepSubjects_map_fixed, hfix], ?_⟩
    rw [processStudent_eq]
    cases hc : choose st.allSubjects s with
    | none => exact hper
    | some r =>
      obtain ⟨i, t⟩ := r
      have hi := (choose_some hc).1
      have hnd' : (st.allSubjects.map Subject.id).Nodup := by
        rw [map_id_of_fixed hfix]; exact hnd
      simp only [assign, List.foldl_append, List.foldl_cons, List.foldl_nil, hper]
      exact applySubjectUpdate_eq_modifyAt hnd' hi s.id
  exact (foldl_processStudent_inv _ (fun st s h => key st h s) students
    ⟨[], subs, [], []⟩ ⟨rfl, rfl⟩).2

theorem queueOrder_valid : queueOrder.Valid :=
  ⟨fun l => List.Perm.refl l, fun l => List.Perm.refl l⟩

theorem reverseOrder_valid : reverseOrder.Valid :=
  ⟨fun l => List.reverse_perm l, fun l => List.reverse_perm l⟩

theorem applySubjectUpdate_map_fixed (w : SubjectUpdate) (l : List Subject) :
    (applySubjectUpdate w l).map Subject.fixed = l.map Subject.fixed := by
  induction l with
  | nil => rfl
  | cons a rest ih =>
    by_cases h : a.id = w.id
    · simp [applySubjectUpdate, h, Subject.fixed]
    · simp [applySubjectUpdate, h, ih]

theorem foldl_applySubjectUpdate_map_fixed (ws : List SubjectUpdate) (l : List Subject) :
    (ws.foldl (fun c u => applySubjectUpdate u c) l).map Subject.fixed =
      l.map Subject.fixed := by
  induction ws generalizing l with
  | nil => rfl
  | cons w rest ih => simp only [List.foldl_cons, ih, applySubjectUpdate_map_fixed]

/-! ### The reset -/

theorem applySubjectReset_append (pre rest : List Subject) (a : Subject) (v : Int)
    (h : ∀ t ∈ pre, t.id ≠ a.id) :
    applySubjectReset (a.id, v) (pre ++ a :: rest) =
      pre ++ { a with seats := v, students := [] } :: rest := by
  induction pre with
  | nil => simp [applySubjectReset]
  | cons b pre ih =>
    have hb : b.id ≠ a.id := h b (List.mem_cons_self _ _)
    have := ih (fun t ht => h t (List.mem_cons_of_mem _ ht))
    simp [applySubjectReset, hb, this]

theorem foldl_applySubjectReset (pre post : List Subject)
    (hnd : ((pre ++ post).map Subject.id).Nodup) :
    (post.map (fun subject => (subject.id, subject.default_seats))).foldl
        (fun c u => applySubjectReset u c) (pre.map resetSubject ++ post) =
      (pre ++ post).map resetSubject := by
  induction post generalizing pre with
  | nil => simp
  | cons a rest ih =>
    have hne : ∀ t ∈ pre.map resetSubject, t.id ≠ a.id := by
      intro t ht e
      obtain ⟨t', ht', rfl⟩ := List.mem_map.mp ht
      simp only [List.map_append, List.map_cons, List.nodup_append, List.nodup_cons] at hnd
      have e' : t'.id = a.id := e
      exact hnd.2.2 (List.mem_map_of_mem _ ht') (e' ▸ List.mem_cons_self _ _)
    simp only [List.map_cons, List.foldl_cons]
    rw [applySubjectReset_append _ _ _ _ hne]
    have h2 := ih (pre ++ [a]) (by simpa using hnd)
    simpa [resetSubject] using h2

theorem clear_eq_resetState {db : Repo} (hnd : (db.subjects.map Subject.id).Nodup) :
    (clearSubjectsForAllStudents db).1 = resetState db := by
  have := foldl_applySubjectReset [] db.subjects (by simpa using hnd)
  simp only [List.map_nil, List.nil_append] at this
  simp only [clearSubjectsForAllStudents, resetState, this]
  rfl

theorem resetState_subject_ids (db : Repo) :
    (resetState db).subjects.map Subject.id = db.subjects.map Subject.id := by
  simp [resetState, List.map_map, Function.comp_def, resetSubject]

theorem resetState_idem (db : Repo) : resetState (resetState db) = resetState db := by
  simp [resetState, List.map_map, Function.comp_def, resetSubject, resetStudent]

theorem resetState_capacity {db : Repo} (h : ∀ s ∈ db.subjects, 0 ≤ s.default_seats) :
    CapacityInv (resetState db).subjects := by
  intro t ht
  obtain ⟨s, hs, rfl⟩ := List.mem_map.mp ht
  simp [resetSubject, h s hs]

theorem runLoop_snoc (subs : List Subject) (pre post : List Student) (student : Student) :
    runLoop subs (pre ++ student :: post) =
      post.foldl processStudent (processStudent (runLoop subs pre) student) := by
  simp [runLoop, List.foldl_append]

theorem find?_satisfiable_none {l : List Subject} {cs : List Nat}
    (h : ∀ c ∈ cs, ∀ i subject, subjectMapGet l c = some (i, subject) → subject.seats ≤ 0) :
    cs.find? (satisfiable l) = none := by
  rw [List.find?_eq_none]
  intro c hc hsat
  unfold satisfiable at hsat
  cases hg : subjectMapGet l c with
  | none => simp [hg] at hsat
  | some r =>
    obtain ⟨i, t⟩ := r
    simp only [hg, decide_eq_true_eq] at hsat
    have := h c hc i t hg
    omega

theorem isEligible_iff (student : Student) (subject : Subject) :
    isEligible student subject = true ↔
      student.dept ∈ subject.eligibility ∧ subject.sem = student.sem ∧ 0 < subject.seats := by
  simp [isEligible, and_assoc]

/-! ### `loginAdmin` -/

/-- Whatever the password, `loginAdmin` does not answer 400: the promise returned by
`bcrypt.compare` is truthy. -/
theorem loginAdmin_never_400 (compare : String → String → Bool) (sign : Nat → String)
    (admins : List Admin) (email password : String) (text : String) :
    loginAdmin compare sign admins email password ≠ .message 400 text := by
  unfold loginAdmin
  cases admins.find? (fun a => a.email == toLowerCase email) with
  | none => simp
  | some admin => simp [Promise.truthy]

/-! ### The queued writes -/

theorem runLoop_studentUpdates (subs : List Subject) (l : List Student) :
    (runLoop subs l).studentUpdates = updatesOf subs l := by
  simp [runLoop, foldl_studentUpdates]

theorem runLoop_allSubjects (subs : List Subject) (l : List Student) :
    (runLoop subs l).allSubjects = l.foldl stepSubjects subs := by
  simp [runLoop, foldl_allSubjects]

theorem updatesOf_ids_sublist (subs : List Subject) (l : List Student) :
    ((updatesOf subs l).map StudentUpdate.id).Sublist (l.map Student.id) := by
  induction l generalizing subs with
  | nil => simp [updatesOf]
  | cons a rest ih =>
    rw [updatesOf_cons]
    cases choose subs a with
    | none => exact (ih _).trans (List.sublist_cons_self _ _)
    | some r => simpa using (ih (stepSubjects subs a))

theorem sortStudents_perm (l : List Student) : (sortStudents l).Perm l :=
  List.perm_insertionSort notAfter l

theorem sortStudents_ids_nodup {l : List Student} (h : (l.map Student.id).Nodup) :
    ((sortStudents l).map Student.id).Nodup :=
  ((sortStudents_perm l).map Student.id).nodup_iff.mpr h

theorem updates_paired (subs : List Subject) (l : List Student) :
    (runLoop subs l).subjectUpdates.map (fun u => (u.student, u.id)) =
      (runLoop subs l).studentUpdates.map (fun u => (u.id, u.subjects)) := by
  refine foldl_processStudent_inv
    (fun st => st.subjectUpdates.map (fun u => (u.student, u.id)) =
      st.studentUpdates.map (fun u => (u.id, u.subjects))) ?_ l ⟨[], subs, [], []⟩ rfl
  intro st s h
  rw [processStudent_eq]
  cases choose st.allSubjects s with
  | none => exact h
  | some r => simp [assign, h]

/-! ### Allocation followed by a reset -/

theorem applyStudentUpdate_map_reset (u : StudentUpdate) (l : List Student) :
    (applyStudentUpdate u l).map resetStudent = l.map resetStudent := by
  induction l with
  | nil => rfl
  | cons a rest ih =>
    by_cases h : a.id = u.id
    · simp [applyStudentUpdate, h, resetStudent]
    · simp [applyStudentUpdate, h, ih]

theorem foldl_applyStudentUpdate_map_reset (us : List StudentUpdate) (l : List Student) :
    (us.foldl (fun c u => applyStudentUpdate u c) l).map resetStudent = l.map resetStudent := by
  induction us generalizing l with
  | nil => rfl
  | cons u rest ih => simp only [List.foldl_cons, ih, applyStudentUpdate_map_reset]

theorem map_resetSubject_of_fixed {l l' : List Subject}
    (h : l'.map Subject.fixed = l.map Subject.fixed) :
    l'.map resetSubject = l.map resetSubject := by
  have e : ∀ s : Subject, resetSubject s =
      (fun f : Nat × List String × Int × Int =>
        (⟨f.1, f.2.1, f.2.2.1, f.2.2.2, f.2.2.2, []⟩ : Subject)) s.fixed := fun s => rfl
  have := congrArg (List.map (fun f : Nat × List String × Int × Int =>
        (⟨f.1, f.2.1, f.2.2.1, f.2.2.2, f.2.2.2, []⟩ : Subject))) h
  simpa [List.map_map, Function.comp_def, ← e] using this

theorem assignElectives_subjects_fixed (σ : Schedule) (db : Repo) :
    (assignElectives σ db).1.subjects.map Subject.fixed = db.subjects.map Subject.fixed :=
  foldl_applySubjectUpdate_map_fixed _ _

theorem resetState_assignElectives (σ : Schedule) (db : Repo) :
    resetState (assignElectives σ db).1 = resetState db := by
  have h1 := map_resetSubject_of_fixed (assignElectives_subjects_fixed σ db)
  have h2 : (assignElectives σ db).1.students.map resetStudent =
      db.students.map resetStudent :=
    foldl_applyStudentUpdate_map_reset _ _
  simp only [resetState, h1, h2]

theorem resetState_of_fresh {db : Repo} (h : Fresh db) : resetState db = db := by
  obtain ⟨hsub, hstu⟩ := h
  have h1 : db.subjects.map resetSubject = db.subjects := by
    conv_rhs => rw [← List.map_id db.subjects]
    apply List.map_congr_left
    intro s hs
    obtain ⟨e1, e2⟩ := hsub s hs
    cases s with
    | mk id el sem seats ds st =>
      simp only at e1 e2
      subst e1 e2
      rfl
  have h2 : db.students.map resetStudent = db.students := by
    conv_rhs => rw [← List.map_id db.students]
    apply List.map_congr_left
    intro s hs
    have e := hstu s hs
    cases s with
    | mk id dept sem cg ch sub =>
      simp only at e
      subst e
      rfl
  simp only [resetState, h1, h2]

/-! ### Persisted students -/

theorem applyStudentUpdate_eq_map {l : List Student} (hnd : (l.map Student.id).Nodup)
    (u : StudentUpdate) :
    applyStudentUpdate u l = l.map (fun s => writeTo s [u]) := by
  induction l with
  | nil => rfl
  | cons a rest ih =>
    simp only [List.map_cons, List.nodup_cons, List.mem_map, not_exists, not_and] at hnd
    by_cases h : a.id = u.id
    · have hrest : rest.map (fun s => writeTo s [u]) = rest := by
        conv_rhs => rw [← List.map_id rest]
        apply List.map_congr_left
        intro t ht
        have : t.id ≠ u.id := fun e => hnd.1 t ht (e.trans h.symm)
        simp [writeTo, this]
      have ha : writeTo a [u] = { a with subjects := some u.subjects } := by
        simp [writeTo, h]
      rw [List.map_cons, hrest, ha]
      simp [applyStudentUpdate, h]
    · have ha : writeTo a [u] = a := by simp [writeTo, h]
      rw [List.map_cons, ← ih hnd.2, ha]
      simp [applyStudentUpdate, h]

theorem writeTo_id (s : Student) (us : List StudentUpdate) : (writeTo s us).id = s.id := by
  induction us generalizing s with
  | nil => rfl
  | cons u rest ih =>
    have e : writeTo s (u :: rest) =
        writeTo (if s.id = u.id then { s with subjects := some u.subjects } else s) rest := rfl
    rw [e, ih]
    split <;> rfl

theorem writeTo_append (s : Student) (us vs : List StudentUpdate) :
    writeTo s (us ++ vs) = writeTo (writeTo s us) vs := by
  simp [writeTo, List.foldl_append]

theorem foldl_applyStudentUpdate_eq_map (us : List StudentUpdate) {l : List Student}
    (hnd : (l.map Student.id).Nodup) :
    us.foldl (fun c u => applyStudentUpdate u c) l = l.map (fun s => writeTo s us) := by
  induction us generalizing l with
  | nil => simp [writeTo]
  | cons u rest ih =>
    have hids : ((l.map (fun s => writeTo s [u])).map Student.id) = l.map Student.id := by
      simp [List.map_map, Function.comp_def, writeTo_id]
    simp only [List.foldl_cons]
    rw [applyStudentUpdate_eq_map hnd, ih (by rw [hids]; exact hnd)]
    simp only [List.map_map, Function.comp_def]
    apply List.map_congr_left
    intro s _
    exact (writeTo_append s [u] rest).symm

theorem writeTo_of_not_mem {s : Student} {us : List StudentUpdate}
    (h : ∀ u ∈ us, u.id ≠ s.id) : writeTo s us = s := by
  induction us with
  | nil => rfl
  | cons u rest ih =>
    have e : writeTo s (u :: rest) =
        writeTo (if s.id = u.id then { s with subjects := some u.subjects } else s) rest := rfl
    have hu : ¬ s.id = u.id := fun e => h u (List.mem_cons_self _ _) e.symm
    rw [e, if_neg hu]
    exact ih (fun v hv => h v (List.mem_cons_of_mem _ hv))

theorem writeTo_of_mem {s : Student} {us : List StudentUpdate}
    (hnd : (us.map StudentUpdate.id).Nodup) {u : StudentUpdate} (hu : u ∈ us)
    (hid : u.id = s.id) : writeTo s us = { s with subjects := some u.subjects } := by
  induction us generalizing s with
  | nil => cases hu
  | cons v rest ih =>
    simp only [List.map_cons, List.nodup_cons, List.mem_map, not_exists, not_and] at hnd
    have e : writeTo s (v :: rest) =
        writeTo (if s.id = v.id then { s with subjects := some v.subjects } else s) rest := rfl
    rcases List.mem_cons.mp hu with rfl | hmem
    · rw [e, if_pos hid.symm]
      apply writeTo_of_not_mem
      intro w hw hwid
      exact hnd.1 w hw (hwid.trans hid.symm)
    · have hv : ¬ s.id = v.id := fun e' => hnd.1 u hmem (hid.trans e')
      rw [e, if_neg hv]
      exact ih hnd.2 hmem hid

theorem writeTo_perm {s : Student} {us vs : List StudentUpdate}
    (hnd : (us.map StudentUpdate.id).Nodup) (hp : vs.Perm us) : writeTo s vs = writeTo s us := by
  have hnd' : (vs.map StudentUpdate.id).Nodup := (hp.map StudentUpdate.id).nodup_iff.mpr hnd
  by_cases hex : ∃ u ∈ us, u.id = s.id
  · obtain ⟨u, hu, huid⟩ := hex
    rw [writeTo_of_mem hnd hu huid, writeTo_of_mem hnd' (hp.mem_iff.mpr hu) huid]
  · have h1 : ∀ u ∈ us, u.id ≠ s.id := fun u hu e => hex ⟨u, hu, e⟩
    have h2 : ∀ u ∈ vs, u.id ≠ s.id := fun u hu e => hex ⟨u, hp.mem_iff.mp hu, e⟩
    rw [writeTo_of_not_mem h1, writeTo_of_not_mem h2]

theorem assignElectives_students {σ : Schedule} (hσ : σ.Valid) {db : Repo}
    (hnd : (db.students.map Student.id).Nodup) :
    (assignElectives σ db).1.students =
      db.students.map (fun s => writeTo s (updatesOf db.subjects (sortStudents db.students))) := by
  have hU : ((updatesOf db.subjects (sortStudents db.students)).map StudentUpdate.id).Nodup :=
    (updatesOf_ids_sublist _ _).nodup (sortStudents_ids_nodup hnd)
  simp only [assignElectives, runLoop_studentUpdates]
  rw [foldl_applyStudentUpdate_eq_map _ hnd]
  apply List.map_congr_left
  intro s _
  exact writeTo_perm hU (hσ.1 _)

/-! ### Where a queued update comes from -/

theorem updatesOf_append (subs : List Subject) (l₁ l₂ : List Student) :
    updatesOf subs (l₁ ++ l₂) = updatesOf subs l₁ ++ updatesOf (l₁.foldl stepSubjects subs) l₂ := by
  induction l₁ generalizing subs with
  | nil => simp [updatesOf]
  | cons a rest ih =>
    simp only [List.cons_append, updatesOf_cons, List.foldl_cons, ih]
    cases choose subs a with
    | none => rfl
    | some r => rfl

theorem mem_updatesOf {subs : List Subject} {l : List Student} {u : StudentUpdate}
    (h : u ∈ updatesOf subs l) :
    ∃ pre s post i subject, l = pre ++ s :: post ∧
      choose (pre.foldl stepSubjects subs) s = some (i, subject) ∧ u = ⟨s.id, subject.id⟩ := by
  induction l generalizing subs with
  | nil => simp [updatesOf] at h
  | cons a rest ih =>
    rw [updatesOf_cons] at h
    cases hc : choose subs a with
    | none =>
      rw [hc] at h
      obtain ⟨pre, s, post, i, subject, hl, hch, hu⟩ := ih h
      exact ⟨a :: pre, s, post, i, subject, by rw [hl]; rfl, by simpa using hch, hu⟩
    | some r =>
      obtain ⟨i, t⟩ := r
      rw [hc] at h
      rcases List.mem_cons.mp h with rfl | h
      · exact ⟨[], a, rest, i, t, rfl, hc, rfl⟩
      · obtain ⟨pre, s, post, j, subject, hl, hch, hu⟩ := ih h
        exact ⟨a :: pre, s, post, j, subject, by rw [hl]; rfl, by simpa using hch, hu⟩

theorem updatesOf_of_choose {subs : List Subject} {pre post : List Student} {s : Student}
    {i : Nat} {subject : Subject}
    (h : choose (pre.foldl stepSubjects subs) s = some (i, subject)) :
    (⟨s.id, subject.id⟩ : StudentUpdate) ∈ updatesOf subs (pre ++ s :: post) := by
  rw [updatesOf_append, updatesOf_cons, h]
  exact List.mem_append_right _ (List.mem_cons_self _ _)

theorem eq_of_id_eq {l : List Student} (hnd : (l.map Student.id).Nodup) {a b : Student}
    (ha : a ∈ l) (hb : b ∈ l) (h : a.id = b.id) : a = b :=
  List.inj_on_of_nodup_map hnd ha hb h

theorem choose_from {l : List Subject} {student : Student} {i : Nat} {s : Subject}
    (h : choose l student = some (i, s)) :
    (fromChoices l student = some (i, s) ∧ s.id ∈ student.choices) ∨
      (fromChoices l student = none ∧ student.dept ∈ s.eligibility ∧ s.sem = student.sem) := by
  rcases (choose_some h).2.2 with ⟨hne, hscan⟩ | ⟨hnone, hfb⟩
  · left
    have hlen : student.choices.length > 0 := List.length_pos.mpr hne
    exact ⟨by simp only [fromChoices, hlen, if_true, hscan], (scanChoices_some hscan).2.2.1⟩
  · right
    have := (isEligible_iff _ _).mp (fallbackSubject_some hfb).2.1
    exact ⟨hnone, this.1, this.2.1⟩

theorem updatesOf_ids_nodup {db : Repo} (hnd : (db.students.map Student.id).Nodup) :
    ((updatesOf db.subjects (sortStudents db.students)).map StudentUpdate.id).Nodup :=
  (updatesOf_ids_sublist _ _).nodup (sortStudents_ids_nodup hnd)

/-! ### What the loop does to one subject -/

theorem index_eq_of_id_eq {l : List Subject} (hnd : (l.map Subject.id).Nodup) {i j : Nat}
    {a b : Subject} (ha : l[i]? = some a) (hb : l[j]? = some b) (h : a.id = b.id) : i = j := by
  have h1 := subjectMapGet_of_nodup hnd ha
  have h2 := subjectMapGet_of_nodup hnd hb
  rw [h, h2] at h1
  simp only [Option.some.injEq, Prod.mk.injEq] at h1
  exact h1.1.symm

theorem id_of_fixed {a b : Subject} (h : a.fixed = b.fixed) : a.id = b.id :=
  congrArg Prod.fst h

theorem history {subs : List Subject} (hnd : (subs.map Subject.id).Nodup) (l : List Student)
    {j : Nat} {subject : Subject} (h : (l.foldl stepSubjects subs)[j]? = some subject) :
    ∃ before, subs[j]? = some before ∧ before.fixed = subject.fixed ∧
      subject.seats ≤ before.seats ∧
      ∀ a, subject.students.count a =
        before.students.count a + (updatesOf subs l).count ⟨a, subject.id⟩ := by
  induction l generalizing subs with
  | nil => exact ⟨subject, h, rfl, le_refl _, fun a => by simp [updatesOf]⟩
  | cons s rest ih =>
    have hnd' : ((stepSubjects subs s).map Subject.id).Nodup := by
      rw [map_id_of_fixed (stepSubjects_map_fixed subs s)]; exact hnd
    obtain ⟨mid, hmid, hfix, hseats, hcount⟩ := ih hnd' h
    rw [updatesOf_cons]
    cases hc : choose subs s with
    | none =>
      have e : stepSubjects subs s = subs := by simp [stepSubjects, hc]
      rw [e] at hmid
      exact ⟨mid, hmid, hfix, hseats, hcount⟩
    | some r =>
      obtain ⟨i, t⟩ := r
      have hi := (choose_some hc).1
      have e : stepSubjects subs s = modifyAt (takeSeat s.id) subs i := by
        simp [stepSubjects, hc]
      rw [e, modifyAt_getElem?] at hmid
      by_cases hji : j = i
      · subst hji
        simp only [if_true, hi, Option.map_some', Option.some.injEq] at hmid
        subst hmid
        have hidt : t.id = subject.id := id_of_fixed hfix
        refine ⟨t, hi, hfix, ?_, fun a => ?_⟩
        · have : (takeSeat s.id t).seats = t.seats - 1 := rfl
          omega
        · rw [hcount a]
          have hst : (takeSeat s.id t).students = t.students ++ [s.id] := rfl
          simp only [hst, List.count_append, List.count_cons, List.count_nil, Nat.zero_add]
          by_cases hsa : s.id = a
          · subst hsa
            simp [hidt]
            omega
          · have hne : ¬ ((⟨s.id, t.id⟩ : StudentUpdate) = ⟨a, subject.id⟩) := by
              intro e'
              exact hsa (congrArg StudentUpdate.id e')
            simp [hsa, hne]
      · simp only [hji, if_false] at hmid
        refine ⟨mid, hmid, hfix, hseats, fun a => ?_⟩
        rw [hcount a]
        have hne : ¬ ((⟨s.id, t.id⟩ : StudentUpdate) = ⟨a, subject.id⟩) := by
          intro e'
          have h1 : t.id = subject.id := congrArg StudentUpdate.subjects e'
          have h2 : mid.id = subject.id := id_of_fixed hfix
          exact hji (index_eq_of_id_eq hnd hmid hi (h2.trans h1.symm))
        simp only [List.count_cons, beq_iff_eq, hne, if_false, Nat.add_zero]

theorem count_update {us : List StudentUpdate} (hnd : (us.map StudentUpdate.id).Nodup)
    {u : StudentUpdate} (hu : u ∈ us) (y : Nat) :
    us.count ⟨u.id, y⟩ = if u.subjects = y then 1 else 0 := by
  by_cases hy : u.subjects = y
  · subst hy
    rw [if_pos rfl]
    exact List.count_eq_one_of_mem hnd.of_map hu
  · rw [if_neg hy]
    apply List.count_eq_zero_of_not_mem
    intro hmem
    have := List.inj_on_of_nodup_map hnd hmem hu rfl
    exact hy (congrArg StudentUpdate.subjects this).symm

theorem updatesOf_subject_mem {subs : List Subject} {l : List Student} {u : StudentUpdate}
    (h : u ∈ updatesOf subs l) : u.subjects ∈ subs.map Subject.id := by
  obtain ⟨pre, s, post, i, subject, -, hch, rfl⟩ := mem_updatesOf h
  have hi := (choose_some hch).1
  rw [← map_id_of_fixed (foldl_stepSubjects_fixed pre subs)]
  exact List.mem_map_of_mem _ (List.getElem?_mem hi)

/-! ### Persisted subjects, whatever the order of the writes -/

theorem landOn_cons (s : Subject) (w : SubjectUpdate) (rest : List SubjectUpdate) :
    landOn s (w :: rest) =
      landOn (if s.id = w.id then
        { s with seats := w.seats, students := s.students ++ [w.student] } else s) rest := rfl

theorem landOn_id (s : Subject) (ws : List SubjectUpdate) : (landOn s ws).id = s.id := by
  induction ws generalizing s with
  | nil => rfl
  | cons w rest ih =>
    rw [landOn_cons, ih]
    split <;> rfl

theorem landOn_append (s : Subject) (us vs : List SubjectUpdate) :
    landOn s (us ++ vs) = landOn (landOn s us) vs := by
  simp [landOn, List.foldl_append]

theorem applySubjectUpdate_eq_map {l : List Subject} (hnd : (l.map Subject.id).Nodup)
    (w : SubjectUpdate) : applySubjectUpdate w l = l.map (fun s => landOn s [w]) := by
  induction l with
  | nil => rfl
  | cons a rest ih =>
    simp only [List.map_cons, List.nodup_cons, List.mem_map, not_exists, not_and] at hnd
    by_cases h : a.id = w.id
    · have hrest : rest.map (fun s => landOn s [w]) = rest := by
        conv_rhs => rw [← List.map_id rest]
        apply List.map_congr_left
        intro t ht
        have : t.id ≠ w.id := fun e => hnd.1 t ht (e.trans h.symm)
        simp [landOn, this]
      have ha : landOn a [w] =
          { a with seats := w.seats, students := a.students ++ [w.student] } := by
        simp [landOn, h]
      rw [List.map_cons, hrest, ha]
      simp [applySubjectUpdate, h]
    · have ha : landOn a [w] = a := by simp [landOn, h]
      rw [List.map_cons, ← ih hnd.2, ha]
      simp [applySubjectUpdate, h]

theorem foldl_applySubjectUpdate_eq_map (ws : List SubjectUpdate) {l : List Subject}
    (hnd : (l.map Subject.id).Nodup) :
    ws.foldl (fun c u => applySubjectUpdate u c) l = l.map (fun s => landOn s ws) := by
  induction ws generalizing l with
  | nil => simp [landOn]
  | cons w rest ih =>
    have hids : ((l.map (fun s => landOn s [w])).map Subject.id) = l.map Subject.id := by
      simp [List.map_map, Function.comp_def, landOn_id]
    simp only [List.foldl_cons]
    rw [applySubjectUpdate_eq_map hnd, ih (by rw [hids]; exact hnd)]
    simp only [List.map_map, Function.comp_def]
    apply List.map_congr_left
    intro s _
    exact (landOn_append s [w] rest).symm

theorem landOn_count (s : Subject) (ws : List SubjectUpdate) (a : Nat) :
    (landOn s ws).students.count a =
      s.students.count a + ws.countP (fun w => decide (w.student = a ∧ w.id = s.id)) := by
  induction ws generalizing s with
  | nil => simp [landOn]
  | cons w rest ih =>
    rw [landOn_cons, ih]
    by_cases h : s.id = w.id
    · simp only [h, if_true, List.count_append, List.count_cons, List.count_nil,
        Nat.zero_add, beq_iff_eq, List.countP_cons, decide_eq_true_eq, and_true]
      omega
    · have hne : ¬ (w.student = a ∧ w.id = s.id) := fun e => h e.2.symm
      simp only [h, if_false, List.countP_cons, decide_eq_true_eq, hne, Nat.add_zero]

theorem landOn_students_perm (s : Subject) {ws vs : List SubjectUpdate} (hp : vs.Perm ws) :
    (landOn s vs).students.Perm (landOn s ws).students := by
  rw [List.perm_iff_count]
  intro a
  rw [landOn_count, landOn_count, hp.countP_eq]

theorem count_queued (subs : List Subject) (l : List Student) (a y : Nat) :
    (runLoop subs l).subjectUpdates.countP (fun w => decide (w.student = a ∧ w.id = y)) =
      (updatesOf subs l).count ⟨a, y⟩ := by
  have h := congrArg (List.countP (fun x : Nat × Nat => decide (x.1 = a ∧ x.2 = y)))
    (updates_paired subs l)
  rw [List.countP_map, List.countP_map, runLoop_studentUpdates] at h
  rw [List.count_eq_countP]
  refine h.trans (List.countP_congr ?_)
  intro u _
  cases u
  simp

theorem assignElectives_subjects (σ : Schedule) {db : Repo}
    (hnd : (db.subjects.map Subject.id).Nodup) :
    (assignElectives σ db).1.subjects =
      db.subjects.map (fun s => landOn s
        (σ.subjects (runLoop db.subjects (sortStudents db.students)).subjectUpdates)) := by
  simp only [assignElectives]
  exact foldl_applySubjectUpdate_eq_map _ hnd

/-- When the writes land in the order in which they were queued, the collection ends up
equal to the subject documents in memory. -/
theorem assignElectives_subjects_queueOrder {db : Repo}
    (hnd : (db.subjects.map Subject.id).Nodup) :
    (assignElectives queueOrder db).1.subjects =
      (runLoop db.subjects (sortStudents db.students)).allSubjects :=
  persisted_subjects hnd (sortStudents db.students)

/-! ### The order in which students are processed -/

theorem hasChoices_of_ne {a : Student} (h : a.choices ≠ []) : hasChoices a = 1 := by
  have : a.choices.length > 0 := List.length_pos.mpr h
  simp [hasChoices, this]

theorem hasChoices_of_eq {a : Student} (h : a.choices = []) : hasChoices a = 0 := by
  simp [hasChoices, h]

theorem hasChoices_eq_of_iff {a b : Student} (h : a.choices = [] ↔ b.choices = []) :
    hasChoices a = hasChoices b := by
  by_cases ha : a.choices = []
  · rw [hasChoices_of_eq ha, hasChoices_of_eq (h.mp ha)]
  · rw [hasChoices_of_ne ha, hasChoices_of_ne (fun hb => ha (h.mpr hb))]

theorem compareStudents_swap (a b : Student) : compareStudents b a = - compareStudents a b := by
  unfold compareStudents
  split_ifs <;> omega

theorem compareStudents_neg_of_outranks {a b : Student}
    (h : (a.choices ≠ [] ∧ b.choices = []) ∨ ((a.choices = [] ↔ b.choices = []) ∧ b.CG < a.CG)) :
    compareStudents a b < 0 := by
  unfold compareStudents
  rcases h with ⟨ha, hb⟩ | ⟨hab, hcg⟩
  · rw [hasChoices_of_ne ha, hasChoices_of_eq hb]
    simp
  · rw [hasChoices_eq_of_iff hab]
    simp only [sub_self, ne_eq, not_true_eq_false, if_false]
    omega

theorem sorted_sortStudents (l : List Student) : (sortStudents l).Pairwise notAfter :=
  List.sorted_insertionSort notAfter l

theorem pair_sublist_split {a b : Student} {l : List Student} (h : [a, b].Sublist l) :
    ∃ pre mid post, l = pre ++ a :: (mid ++ b :: post) := by
  induction l with
  | nil => cases h
  | cons x rest ih =>
    cases h with
    | cons _ h' =>
      obtain ⟨pre, mid, post, e⟩ := ih h'
      exact ⟨x :: pre, mid, post, by rw [e]; rfl⟩
    | cons₂ _ h' =>
      have hb : b ∈ rest := by
        have := h'.subset
        exact this (List.mem_singleton_self b)
      obtain ⟨mid, post, e⟩ := List.append_of_mem hb
      exact ⟨[], mid, post, by rw [e]; rfl⟩

theorem processed_before {l : List Student} {a b : Student} (ha : a ∈ l) (hb : b ∈ l)
    (h : Outranks l a b) :
    ∃ pre mid post, sortStudents l = pre ++ a :: (mid ++ b :: post) := by
  have strict : compareStudents a b < 0 →
      ∃ pre mid post, sortStudents l = pre ++ a :: (mid ++ b :: post) := by
    intro hlt
    have ha' : a ∈ sortStudents l := (sortStudents_perm l).mem_iff.mpr ha
    have hb' : b ∈ sortStudents l := (sortStudents_perm l).mem_iff.mpr hb
    obtain ⟨pre, rest, e⟩ := List.append_of_mem ha'
    have hsorted := sorted_sortStudents l
    rw [e] at hsorted hb'
    have hne : b ≠ a := by
      rintro rfl
      have := compareStudents_swap b b
      omega
    rcases List.mem_append.mp hb' with hpre | hrest
    · have := (List.pairwise_append.mp hsorted).2.2 b hpre a (List.mem_cons_self _ _)
      unfold notAfter at this
      have hs := compareStudents_swap a b
      omega
    · rcases List.mem_cons.mp hrest with heq | hrest
      · exact absurd heq hne
      · obtain ⟨mid, post, e'⟩ := List.append_of_mem hrest
        exact ⟨pre, mid, post, by rw [e, e']⟩
  rcases h with h1 | h2 | ⟨hab, hcg, hsub⟩
  · exact strict (compareStudents_neg_of_outranks (Or.inl h1))
  · exact strict (compareStudents_neg_of_outranks (Or.inr h2))
  · have hle : notAfter a b := by
      unfold notAfter compareStudents
      rw [hasChoices_eq_of_iff hab]
      simp only [sub_self, ne_eq, not_true_eq_false, if_false]
      omega
    exact pair_sublist_split (List.pair_sublist_insertionSort hle hsub)

/-! ### A student's own update -/

theorem split_unique {l : List Student} (hnd : (l.map Student.id).Nodup)
    {p₁ q₁ p₂ q₂ : List Student} {a b : Student}
    (h₁ : l = p₁ ++ a :: q₁) (h₂ : l = p₂ ++ b :: q₂) (hid : a.id = b.id) :
    p₁ = p₂ ∧ a = b := by
  induction p₁ generalizing l p₂ with
  | nil =>
    cases p₂ with
    | nil =>
      rw [h₁] at h₂
      simp only [List.nil_append, List.cons.injEq] at h₂
      exact ⟨rfl, h₂.1⟩
    | cons x p₂ =>
      rw [h₁] at h₂ hnd
      simp only [List.nil_append, List.cons_append, List.cons.injEq] at h₂
      obtain ⟨rfl, rfl⟩ := h₂
      simp only [List.nil_append, List.map_cons, List.map_append, List.nodup_cons,
        List.mem_append, List.mem_map, List.mem_cons] at hnd
      exact absurd (Or.inr (Or.inl hid)) hnd.1
  | cons y p₁ ih =>
    cases p₂ with
    | nil =>
      rw [h₁] at h₂ hnd
      simp only [List.nil_append, List.cons_append, List.cons.injEq] at h₂
      obtain ⟨rfl, rfl⟩ := h₂
      simp only [List.cons_append, List.map_cons, List.map_append, List.nodup_cons,
        List.mem_append, List.mem_map, List.mem_cons] at hnd
      exact absurd (Or.inr (Or.inl hid.symm)) hnd.1
    | cons x p₂ =>
      have e := h₁.symm.trans h₂
      simp only [List.cons_append, List.cons.injEq] at e
      obtain ⟨rfl, e⟩ := e
      have hnd' : ((p₁ ++ a :: q₁).map Student.id).Nodup := by
        rw [h₁] at hnd
        simp only [List.cons_append, List.map_cons, List.nodup_cons] at hnd
        exact hnd.2
      obtain ⟨rfl, rfl⟩ := ih hnd' rfl e
      exact ⟨rfl, rfl⟩

theorem choose_of_update {subs : List Subject} {pre post : List Student} {s : Student}
    (hnd : ((pre ++ s :: post).map Student.id).Nodup) {u : StudentUpdate}
    (hu : u ∈ updatesOf subs (pre ++ s :: post)) (hid : u.id = s.id) :
    ∃ i subject, choose (pre.foldl stepSubjects subs) s = some (i, subject) ∧
      u.subjects = subject.id := by
  obtain ⟨pre', s', post', i, subject, hl, hch, rfl⟩ := mem_updatesOf hu
  obtain ⟨rfl, rfl⟩ := split_unique hnd hl rfl hid
  exact ⟨i, subject, hch, rfl⟩

theorem find?_id {l : List Student} (hnd : (l.map Student.id).Nodup) {s : Student}
    (hs : s ∈ l) : l.find? (fun t => t.id == s.id) = some s := by
  induction l with
  | nil => cases hs
  | cons a rest ih =>
    simp only [List.map_cons, List.nodup_cons, List.mem_map, not_exists, not_and] at hnd
    rcases List.mem_cons.mp hs with rfl | hs
    · simp [List.find?_cons]
    · have hne : ¬ a.id = s.id := fun e => hnd.1 s hs e.symm
      simp [List.find?_cons, hne, ih hnd.2 hs]

theorem assignedSubject_assignElectives {σ : Schedule} (hσ : σ.Valid) {db : Repo}
    (hnd : (db.students.map Student.id).Nodup) {s : Student} (hs : s ∈ db.students) :
    assignedSubject (assignElectives σ db).1 s.id =
      (writeTo s (updatesOf db.subjects (sortStudents db.students))).subjects := by
  unfold assignedSubject
  rw [assignElectives_students hσ hnd, List.find?_map]
  have : ((fun t : Student => t.id == s.id) ∘
      fun s => writeTo s (updatesOf db.subjects (sortStudents db.students))) =
      fun t => t.id == s.id := by
    funext t
    simp [writeTo_id]
  rw [this, find?_id hnd hs]
  rfl

theorem find?_before {p : Nat → Bool} {l : List Nat} {x : Nat} (hx : x ∈ l) (hp : p x = true) :
    ∃ k c, l.find? p = some c ∧ l[k]? = some c ∧ k ≤ l.indexOf x := by
  induction l with
  | nil => cases hx
  | cons h tl ih =>
    by_cases hh : p h = true
    · exact ⟨0, h, by simp [List.find?_cons, hh], by simp, Nat.zero_le _⟩
    · have hne : h ≠ x := by
        rintro rfl
        exact hh hp
      have hx' : x ∈ tl := by
        rcases List.mem_cons.mp hx with e | e
        · exact absurd e.symm hne
        · exact e
      obtain ⟨k, c, hf, hk, hle⟩ := ih hx'
      refine ⟨k + 1, c, ?_, by simpa using hk, ?_⟩
      · simp only [Bool.not_eq_true] at hh
        simp [List.find?_cons, hh, hf]
      · rw [List.indexOf_cons_ne _ hne]
        omega

/-! ## The claims -/

/-- C1. The capacity invariant is preserved by allocation: when every subject of the
repository has `seats >= 0` and `students.length = default_seats - seats`, so has every
subject of the state the loop of `assignElectives` computes; in particular this applies
to the state `clearSubjectsForAllStudents` produces when every `default_seats >= 0`.  The
repository is a pair of MongoDB collections, so each `_id` occurs once. -/
theorem assignElectives_preserves_capacity (db : Repo)
    (hid : (db.subjects.map Subject.id).Nodup) :
    (CapacityInv db.subjects →
      CapacityInv (runLoop db.subjects (sortStudents db.students)).allSubjects) ∧
    ((∀ s ∈ db.subjects, 0 ≤ s.default_seats) →
      CapacityInv (clearSubjectsForAllStudents db).1.subjects ∧
      CapacityInv (runLoop (clearSubjectsForAllStudents db).1.subjects
        (sortStudents (clearSubjectsForAllStudents db).1.students)).allSubjects) := by
  refine ⟨fun hinv => ?_, fun hdef => ?_⟩
  · rw [runLoop_allSubjects]
    exact foldl_stepSubjects_capacity _ hinv
  · rw [clear_eq_resetState hid]
    have hcap := resetState_capacity hdef
    refine ⟨hcap, ?_⟩
    rw [runLoop_allSubjects]
    exact foldl_stepSubjects_capacity _ hcap

/-- The capacity invariant when two students are given the same subject. -/
theorem assignElectives_preserves_capacity_witness :
    ((twoForOne.subjects.map Subject.id).Nodup ∧ CapacityInv twoForOne.subjects) ∧
    CapacityInv (runLoop twoForOne.subjects (sortStudents twoForOne.students)).allSubjects :=
  ⟨by decide, (assignElectives_preserves_capacity twoForOne (by decide)).1 (by decide)⟩

/-- C2 (counterexample). On a freshly reset state a student of dept CS in sem 3 who lists
subject 2 is assigned subject 2, although its `eligibility` is `["EE"]` and its `sem` is 5:
the choices block never looks at `eligibility` or `sem`. -/
theorem choice_ignores_eligibility :
    Fresh ineligibleChoice ∧
    (assignElectives queueOrder ineligibleChoice).1.students =
      [⟨1, "CS", 3, 80, [2], some 2⟩] ∧
    ∀ subject ∈ ineligibleChoice.subjects, subject.id = 2 →
      ¬ ("CS" ∈ subject.eligibility ∧ subject.sem = 3) := by
  decide

/-- C2 (amended). After `assignElectives` on a state in which no student holds a subject
(a freshly reset state), every student whose `subjects` is non-null was given that subject
when the loop processed them, the subject had `seats > 0` at that moment, and either it
was taken from the student's choices (with no check of `eligibility` or `sem`) or it is a
fallback assignment and then its `eligibility` contains the student's `dept` and its `sem`
equals the student's `sem`. -/
theorem assignment_from_choice_or_eligible (σ : Schedule) (hσ : σ.Valid) (db : Repo)
    (hid : UniqueIds db) (hnull : ∀ s ∈ db.students, s.subjects = none) :
    ∀ t ∈ (assignElectives σ db).1.students, ∀ x, t.subjects = some x →
      ∃ pre s post i subject, sortStudents db.students = pre ++ s :: post ∧
        t = { s with subjects := some x } ∧
        (runLoop db.subjects pre).allSubjects[i]? = some subject ∧ subject.id = x ∧
        0 < subject.seats ∧
        ((fromChoices (runLoop db.subjects pre).allSubjects s = some (i, subject) ∧
            x ∈ s.choices) ∨
          (fromChoices (runLoop db.subjects pre).allSubjects s = none ∧
            s.dept ∈ subject.eligibility ∧ subject.sem = s.sem)) := by
  intro t ht x hx
  rw [assignElectives_students hσ hid.1] at ht
  obtain ⟨s₀, hs₀, rfl⟩ := List.mem_map.mp ht
  have hU := updatesOf_ids_nodup hid.1
  by_cases hex : ∃ u ∈ updatesOf db.subjects (sortStudents db.students), u.id = s₀.id
  · obtain ⟨u, hu, huid⟩ := hex
    rw [writeTo_of_mem hU hu huid] at hx ⊢
    simp only [Option.some.injEq] at hx
    obtain ⟨pre, s, post, i, subject, hl, hch, rfl⟩ := mem_updatesOf hu
    have hmem : s ∈ db.students :=
      (sortStudents_perm db.students).mem_iff.mp (by rw [hl]; simp)
    have hs : s = s₀ := eq_of_id_eq hid.1 hmem hs₀ huid
    subst hs
    simp only at hx
    subst hx
    have hcs := choose_some hch
    refine ⟨pre, s, post, i, subject, hl, rfl, ?_, rfl, hcs.2.1, ?_⟩
    · rw [runLoop_allSubjects]; exact hcs.1
    · rw [runLoop_allSubjects]; exact choose_from hch
  · have hnone : ∀ u ∈ updatesOf db.subjects (sortStudents db.students), u.id ≠ s₀.id :=
      fun u hu e => hex ⟨u, hu, e⟩
    rw [writeTo_of_not_mem hnone, hnull s₀ hs₀] at hx
    cases hx

/-- Origin of the assignments in the scenario of the specification. -/
theorem assignment_from_choice_or_eligible_witness :
    (UniqueIds scenario ∧ ∀ s ∈ scenario.students, s.subjects = none) ∧
    ∀ t ∈ (assignElectives reverseOrder scenario).1.students, ∀ x, t.subjects = some x →
      ∃ pre s post i subject, sortStudents scenario.students = pre ++ s :: post ∧
        t = { s with subjects := some x } ∧
        (runLoop scenario.subjects pre).allSubjects[i]? = some subject ∧ subject.id = x ∧
        0 < subject.seats ∧
        ((fromChoices (runLoop scenario.subjects pre).allSubjects s = some (i, subject) ∧
            x ∈ s.choices) ∨
          (fromChoices (runLoop scenario.subjects pre).allSubjects s = none ∧
            s.dept ∈ subject.eligibility ∧ subject.sem = s.sem)) :=
  ⟨by decide, assignment_from_choice_or_eligible reverseOrder
    reverseOrder_valid scenario
    (by decide) (by decide)⟩

/-- C3 (counterexample). The state an earlier allocation left satisfies the invariant
(student 1 holds subject 1 and occurs once in its list); after `assignElectives` the
student occurs twice in that list. -/
theorem second_allocation_breaks_mirror :
    UniqueIds alreadyAllocated ∧ MirrorInv alreadyAllocated ∧
    (assignElectives queueOrder alreadyAllocated).1.subjects.map Subject.students =
      [[1, 1]] ∧
    ¬ MirrorInv (assignElectives queueOrder alreadyAllocated).1 := by
  decide

/-- C3 (amended). At most one assignment with a consistent mirror, for a run that starts
with no student assigned: in a repository with unique student and subject ids where
every student's `subjects` is null and no student's id occurs in any subject's `students`
list (for example a freshly reset state), after `assignElectives` every student's
`subjects` is null or the id of one subject, and the student's id occurs once in the
`students` list of exactly that subject and in no other list. -/
theorem assignElectives_mirror (σ : Schedule) (hσ : σ.Valid) (db : Repo)
    (hid : UniqueIds db) (hnull : ∀ s ∈ db.students, s.subjects = none)
    (hinv : MirrorInv db) :
    MirrorInv (assignElectives σ db).1 := by
  have hU := updatesOf_ids_nodup hid.1
  have hfix := assignElectives_subjects_fixed σ db
  intro t ht
  rw [assignElectives_students hσ hid.1] at ht
  obtain ⟨s, hs, rfl⟩ := List.mem_map.mp ht
  have hzero : ∀ before ∈ db.subjects, before.students.count s.id = 0 := by
    intro before hb
    have := (hinv s hs).2 before hb
    rw [hnull s hs] at this
    simpa using this
  have hcount : ∀ subject ∈ (assignElectives σ db).1.subjects,
      subject.students.count s.id =
        (updatesOf db.subjects (sortStudents db.students)).count ⟨s.id, subject.id⟩ := by
    intro subject hsub
    rw [assignElectives_subjects σ hid.2] at hsub
    obtain ⟨before, hb, rfl⟩ := List.mem_map.mp hsub
    rw [landOn_count, hzero before hb, Nat.zero_add, landOn_id, (hσ.2 _).countP_eq,
      count_queued]
  by_cases hex : ∃ u ∈ updatesOf db.subjects (sortStudents db.students), u.id = s.id
  · obtain ⟨u, hu, huid⟩ := hex
    rw [writeTo_of_mem hU hu huid]
    constructor
    · right
      have := updatesOf_subject_mem hu
      rw [← map_id_of_fixed hfix] at this
      obtain ⟨subject, hsub, hsid⟩ := List.mem_map.mp this
      exact ⟨subject, hsub, by simp [hsid]⟩
    · intro subject hsub
      have := hcount subject hsub
      rw [← huid, count_update hU hu] at this
      simp only [Option.some.injEq]
      rw [← huid]
      exact this
  · have hnone : ∀ u ∈ updatesOf db.subjects (sortStudents db.students), u.id ≠ s.id :=
      fun u hu e => hex ⟨u, hu, e⟩
    rw [writeTo_of_not_mem hnone]
    refine ⟨Or.inl (hnull s hs), fun subject hsub => ?_⟩
    rw [hcount subject hsub, hnull s hs]
    simp only [reduceCtorEq, if_false]
    apply List.count_eq_zero_of_not_mem
    intro hmem
    exact hnone _ hmem rfl

/-- The mirror invariant after two students are given the same subject. -/
theorem assignElectives_mirror_witness :
    (UniqueIds twoForOne ∧ (∀ s ∈ twoForOne.students, s.subjects = none) ∧
      MirrorInv twoForOne) ∧
    MirrorInv (assignElectives reverseOrder twoForOne).1 :=
  ⟨by decide, assignElectives_mirror reverseOrder
    reverseOrder_valid twoForOne
    (by decide) (by decide) (by decide)⟩

/-- C4 (counterexample). Student 2 holds the only seat of subject 1 from an earlier
allocation.  Student 1 outranks student 2 (same group, higher CG) and lists subject 1,
which is in the lookup; after `assignElectives` student 2 still holds subject 1 and
student 1 holds nothing. -/
theorem rank_priority_fails_on_taken_seat :
    UniqueIds seatTaken ∧
    Outranks seatTaken.students ⟨1, "CS", 3, 90, [1], none⟩ ⟨2, "CS", 3, 80, [1], some 1⟩ ∧
    (subjectMapGet seatTaken.subjects 1).isSome = true ∧
    assignedSubject (assignElectives queueOrder seatTaken).1 2 = some 1 ∧
    assignedSubject (assignElectives queueOrder seatTaken).1 1 = none := by
  refine ⟨by decide, Or.inr (Or.inl ⟨by decide, by decide⟩), by decide, by decide, by decide⟩

/-- C4 (amended). Rank priority for assignments this run makes: in a repository with
unique ids, let student `a` outrank student `b`, and let `b` hold no subject before the
run.  If `b` ends up assigned a subject `x` that appears in the choices of `a`, then `a`
ends up assigned `x` or a subject listed earlier than `x` in the choices of `a`. -/
theorem rank_priority (σ : Schedule) (hσ : σ.Valid) (db : Repo) (hid : UniqueIds db)
    (a b : Student) (ha : a ∈ db.students) (hb : b ∈ db.students)
    (hrank : Outranks db.students a b) (hbnull : b.subjects = none) (x : Nat)
    (hxa : x ∈ a.choices)
    (hbx : assignedSubject (assignElectives σ db).1 b.id = some x) :
    ∃ y k, assignedSubject (assignElectives σ db).1 a.id = some y ∧
      a.choices[k]? = some y ∧ k ≤ a.choices.indexOf x := by
  have hU := updatesOf_ids_nodup hid.1
  obtain ⟨pre, mid, post, hsort⟩ := processed_before ha hb hrank
  have hnds := sortStudents_ids_nodup hid.1
  -- the update of `b` was queued when `b` was processed
  rw [assignedSubject_assignElectives hσ hid.1 hb] at hbx
  have hexb : ∃ u ∈ updatesOf db.subjects (sortStudents db.students), u.id = b.id := by
    by_contra hno
    have hnone : ∀ u ∈ updatesOf db.subjects (sortStudents db.students), u.id ≠ b.id :=
      fun u hu e => hno ⟨u, hu, e⟩
    rw [writeTo_of_not_mem hnone, hbnull] at hbx
    cases hbx
  obtain ⟨u, hu, huid⟩ := hexb
  rw [writeTo_of_mem hU hu huid] at hbx
  simp only [Option.some.injEq] at hbx
  have hsort' : sortStudents db.students = (pre ++ a :: mid) ++ b :: post := by
    rw [hsort]; simp
  rw [hsort'] at hu hnds
  obtain ⟨j, subjB, hchB, hsub⟩ := choose_of_update hnds hu huid
  obtain ⟨hjB, hposB, -⟩ := choose_some hchB
  -- the subject had a seat when `a` was processed
  rw [List.foldl_append, List.foldl_cons] at hjB
  have hndA : ((pre.foldl stepSubjects db.subjects).map Subject.id).Nodup := by
    rw [map_id_of_fixed (foldl_stepSubjects_fixed pre db.subjects)]; exact hid.2
  have hjB' : ((a :: mid).foldl stepSubjects (pre.foldl stepSubjects db.subjects))[j]? =
      some subjB := hjB
  obtain ⟨before, hbefore, hfix, hseats, -⟩ := history hndA (a :: mid) hjB'
  have hbid : before.id = x := by
    rw [id_of_fixed hfix, ← hsub, hbx]
  have hget := subjectMapGet_of_nodup hndA hbefore
  rw [hbid] at hget
  have hsat : satisfiable (pre.foldl stepSubjects db.subjects) x = true := by
    simp only [satisfiable, hget, decide_eq_true_eq]
    omega
  -- so the scan of the choices of `a` stops at `x` at the latest
  obtain ⟨k, c, hfind, hk, hle⟩ := find?_before hxa hsat
  have hcsat := List.find?_some hfind
  unfold satisfiable at hcsat
  cases hgc : subjectMapGet (pre.foldl stepSubjects db.subjects) c with
  | none => simp [hgc] at hcsat
  | some r =>
    obtain ⟨i, t⟩ := r
    have htid : t.id = c := (subjectMapGet_some hgc).2
    have hlen : a.choices.length > 0 := List.length_pos_of_mem hxa
    have hchA : choose (pre.foldl stepSubjects db.subjects) a = some (i, t) := by
      simp only [choose, fromChoices, hlen, if_true, scanChoices_eq_find, hfind, hgc]
    have hua : (⟨a.id, t.id⟩ : StudentUpdate) ∈
        updatesOf db.subjects (sortStudents db.students) := by
      rw [hsort]
      exact updatesOf_of_choose hchA
    refine ⟨c, k, ?_, hk, hle⟩
    rw [assignedSubject_assignElectives hσ hid.1 ha, writeTo_of_mem hU hua rfl, htid]

/-- Two students list the same subject; the one with the higher CG is served. -/
theorem rank_priority_witness :
    (UniqueIds twoForOne ∧
      Outranks twoForOne.students ⟨1, "CS", 3, 90, [1], none⟩ ⟨2, "CS", 3, 80, [1], none⟩ ∧
      assignedSubject (assignElectives reverseOrder twoForOne).1 2 = some 1) ∧
    ∃ y k, assignedSubject (assignElectives reverseOrder twoForOne).1 1 = some y ∧
      [1][k]? = some y ∧ k ≤ [1].indexOf 1 :=
  ⟨⟨by decide, Or.inr (Or.inl ⟨by decide, by decide⟩), by decide⟩,
    rank_priority reverseOrder reverseOrder_valid
      twoForOne (by decide) ⟨1, "CS", 3, 90, [1], none⟩ ⟨2, "CS", 3, 80, [1], none⟩
      (by decide) (by decide) (Or.inr (Or.inl ⟨by decide, by decide⟩)) rfl 1 (by decide)
      (by decide)⟩

/-- C5. Preference precedence: when the loop reaches a student with a non-empty choices
list, and `c` is the first of the choices, in the stated order, that is in the subject
lookup with `seats > 0` at that moment, the student is assigned `c`: the choices block
succeeds with the looked-up subject (so the fallback block is not entered) and the run
goes on from the state in which that assignment has been made.  In particular, when the
first choice is full and the second has a seat, `c` is the second choice. -/
theorem choices_take_precedence (subs : List Subject) (pre post : List Student)
    (student : Student) (c : Nat) (hne : student.choices ≠ [])
    (hc : student.choices.find? (satisfiable (runLoop subs pre).allSubjects) = some c) :
    (∃ i subject, subjectMapGet (runLoop subs pre).allSubjects c = some (i, subject) ∧
      subject.id = c ∧ 0 < subject.seats ∧
      fromChoices (runLoop subs pre).allSubjects student = some (i, subject) ∧
      runLoop subs (pre ++ [student]) = assign (runLoop subs pre) student i subject ∧
      runLoop subs (pre ++ student :: post) =
        post.foldl processStudent (assign (runLoop subs pre) student i subject)) ∧
    (∀ c₁ c₂ rest i₁ s₁ i₂ s₂, student.choices = c₁ :: c₂ :: rest →
      subjectMapGet (runLoop subs pre).allSubjects c₁ = some (i₁, s₁) → s₁.seats ≤ 0 →
      subjectMapGet (runLoop subs pre).allSubjects c₂ = some (i₂, s₂) → 0 < s₂.seats →
      c = c₂) := by
  constructor
  · have hsat := List.find?_some hc
    unfold satisfiable at hsat
    cases hg : subjectMapGet (runLoop subs pre).allSubjects c with
    | none => simp [hg] at hsat
    | some r =>
      obtain ⟨i, subject⟩ := r
      simp only [hg, decide_eq_true_eq] at hsat
      have hlen : student.choices.length > 0 := List.length_pos.mpr hne
      have hfrom : fromChoices (runLoop subs pre).allSubjects student = some (i, subject) := by
        simp only [fromChoices, hlen, if_true, scanChoices_eq_find, hc, hg]
      have hstep : processStudent (runLoop subs pre) student =
          assign (runLoop subs pre) student i subject := by
        simp only [processStudent, hfrom]
      refine ⟨i, subject, rfl, (subjectMapGet_some hg).2, hsat, hfrom, ?_, ?_⟩
      · have := runLoop_snoc subs pre [] student
        simpa [hstep] using this
      · rw [runLoop_snoc, hstep]
  · intro c₁ c₂ rest i₁ s₁ i₂ s₂ hch h1 hs1 h2 hs2
    have f1 : satisfiable (runLoop subs pre).allSubjects c₁ = false := by
      simp only [satisfiable, h1, decide_eq_false_iff_not]; omega
    have f2 : satisfiable (runLoop subs pre).allSubjects c₂ = true := by
      simp only [satisfiable, h2, decide_eq_true_eq]; omega
    rw [hch] at hc
    simp only [List.find?_cons, f1, f2, Option.some.injEq] at hc
    exact hc.symm

/-- A student whose first choice is full and whose second choice has a seat gets the second. -/
theorem choices_take_precedence_witness :
    (firstChoiceFull.students.map Student.choices = [[1, 2]] ∧
      satisfiable firstChoiceFull.subjects 1 = false ∧
      satisfiable firstChoiceFull.subjects 2 = true) ∧
    ∃ i subject, subjectMapGet (runLoop firstChoiceFull.subjects []).allSubjects 2 =
        some (i, subject) ∧
      runLoop firstChoiceFull.subjects ([] ++ [⟨1, "CS", 3, 80, [1, 2], none⟩]) =
        assign (runLoop firstChoiceFull.subjects []) ⟨1, "CS", 3, 80, [1, 2], none⟩ i subject :=
  ⟨by decide,
    match (choices_take_precedence firstChoiceFull.subjects [] []
      ⟨1, "CS", 3, 80, [1, 2], none⟩ 2 (by decide) (by decide)).1 with
    | ⟨i, subject, h1, _, _, _, h5, _⟩ => ⟨i, subject, h1, h5⟩⟩

/-- C6. Fallback rule: when the loop reaches a student none of whose choices is
satisfiable (every choice is missing from the lookup or has `seats <= 0`; an empty list
included), the student is assigned the first subject in repository order whose
`eligibility` contains the student's `dept`, whose `sem` equals the student's `sem` and
whose `seats > 0`; when there is no such subject the state is left as it was except that
the student's unchanged document joins the processed ones (no seat taken, no list
changed, nothing queued), and the handler still answers 200. -/
theorem fallback_rule (subs : List Subject) (pre post : List Student) (student : Student)
    (hno : ∀ c ∈ student.choices, ∀ i subject,
      subjectMapGet (runLoop subs pre).allSubjects c = some (i, subject) → subject.seats ≤ 0) :
    (∀ j subject, (runLoop subs pre).allSubjects[j]? = some subject →
      (student.dept ∈ subject.eligibility ∧ subject.sem = student.sem ∧ 0 < subject.seats) →
      (∀ k t, k < j → (runLoop subs pre).allSubjects[k]? = some t →
        ¬ (student.dept ∈ t.eligibility ∧ t.sem = student.sem ∧ 0 < t.seats)) →
      runLoop subs (pre ++ [student]) = assign (runLoop subs pre) student j subject ∧
      runLoop subs (pre ++ student :: post) =
        post.foldl processStudent (assign (runLoop subs pre) student j subject)) ∧
    ((∀ t ∈ (runLoop subs pre).allSubjects,
        ¬ (student.dept ∈ t.eligibility ∧ t.sem = student.sem ∧ 0 < t.seats)) →
      runLoop subs (pre ++ [student]) =
        { runLoop subs pre with students := (runLoop subs pre).students ++ [student] } ∧
      runLoop subs (pre ++ student :: post) =
        post.foldl processStudent
          { runLoop subs pre with students := (runLoop subs pre).students ++ [student] }) ∧
    (∀ (σ : Schedule) (db : Repo),
      (assignElectives σ db).2 = ⟨200, "Electives assigned successfully"⟩) := by
  have hfrom : fromChoices (runLoop subs pre).allSubjects student = none := by
    unfold fromChoices
    split
    · rw [scanChoices_eq_find, find?_satisfiable_none hno]
    · rfl
  have hsnoc := runLoop_snoc subs pre [] student
  simp only [List.foldl_nil] at hsnoc
  refine ⟨?_, ?_, fun σ db => rfl⟩
  · intro j subject hj hel hfirst
    have hfb : fallbackSubject student (runLoop subs pre).allSubjects = some (j, subject) := by
      cases hf : fallbackSubject student (runLoop subs pre).allSubjects with
      | none =>
        have := fallbackSubject_none.mp hf subject (List.getElem?_mem hj)
        rw [(isEligible_iff _ _).mpr hel] at this
        cases this
      | some r =>
        obtain ⟨k, t⟩ := r
        obtain ⟨hk, hkel, hkfirst⟩ := fallbackSubject_some hf
        have hjk : ¬ k < j := fun hlt => hfirst k t hlt hk ((isEligible_iff _ _).mp hkel)
        have hkj : ¬ j < k := fun hlt => by
          have := hkfirst j subject hlt hj
          rw [(isEligible_iff _ _).mpr hel] at this
          cases this
        have : k = j := by omega
        subst this
        rw [hj] at hk
        simp only [Option.some.injEq] at hk
        rw [hk]
    have hstep : processStudent (runLoop subs pre) student =
        assign (runLoop subs pre) student j subject := by
      simp only [processStudent, hfrom, hfb]
    exact ⟨by rw [hsnoc, hstep], by rw [runLoop_snoc, hstep]⟩
  · intro hnone
    have hfb : fallbackSubject student (runLoop subs pre).allSubjects = none := by
      rw [fallbackSubject_none]
      intro t ht
      have := hnone t ht
      rw [← isEligible_iff] at this
      simpa using this
    have hstep : processStudent (runLoop subs pre) student =
        { runLoop subs pre with students := (runLoop subs pre).students ++ [student] } := by
      simp only [processStudent, hfrom, hfb]
    exact ⟨by rw [hsnoc, hstep], by rw [runLoop_snoc, hstep]⟩

/-- In the scenario of the specification Bob, who states no choice, falls back to S2. -/
theorem fallback_rule_witness :
    runLoop scenario.subjects ([⟨1, "CS", 3, 80, [1], none⟩] ++ [⟨2, "CS", 3, 95, [], none⟩]) =
      assign (runLoop scenario.subjects [⟨1, "CS", 3, 80, [1], none⟩])
        ⟨2, "CS", 3, 95, [], none⟩ 1 ⟨2, ["CS", "EE"], 3, 1, 1, []⟩ :=
  ((fallback_rule scenario.subjects [⟨1, "CS", 3, 80, [1], none⟩] []
      ⟨2, "CS", 3, 95, [], none⟩ (fun c hc => by cases hc)).1
    1 ⟨2, ["CS", "EE"], 3, 1, 1, []⟩ (by decide) (by decide)
    (fun k t hk hkt => by
      have h0 : k = 0 := by omega
      subst h0
      have ht : t = ⟨1, ["CS"], 3, 0, 1, [1]⟩ := by
        have e : (runLoop scenario.subjects [⟨1, "CS", 3, 80, [1], none⟩]).allSubjects[0]? =
            some ⟨1, ["CS"], 3, 0, 1, [1]⟩ := by decide
        rw [e] at hkt
        exact (Option.some.inj hkt).symm
      subst ht
      decide)).1

/-- C7 (counterexample). Started on a state an earlier allocation left (student 1 already
holds a seat of subject 1), the first run enrols the student a second time; after the
reset the run enrols the student once: seats and students list differ.  Started on a
freshly reset state, the second run reproduces the first run's seats and students list
only if its writes land in the same order: with two writes on subject 1 landing in the
opposite order, the subject is left with another seats value and another list. -/
theorem round_trip_differs :
    ((assignElectives queueOrder alreadyAllocated).1.subjects.map
        (fun s => (s.seats, s.students)) = [(1, [1, 1])] ∧
      (assignElectives queueOrder (clearSubjectsForAllStudents
          (assignElectives queueOrder alreadyAllocated).1).1).1.subjects.map
        (fun s => (s.seats, s.students)) = [(2, [1])]) ∧
    (Fresh twoForOne ∧
      (assignElectives queueOrder twoForOne).1.subjects.map
        (fun s => (s.seats, s.students)) = [(0, [1, 2])] ∧
      (assignElectives reverseOrder (clearSubjectsForAllStudents
          (assignElectives queueOrder twoForOne).1).1).1.subjects.map
        (fun s => (s.seats, s.students)) = [(1, [2, 1])]) := by
  decide

/-- C7 (amended). Running `assignElectives` and then `clearSubjectsForAllStudents` gives
the state `clearSubjectsForAllStudents` alone gives.  Hence, when the first run started
from a freshly reset state, running `assignElectives` again repeats the first run's
computation (the same queued updates, the same seats and students lists in memory) and
leaves every student with the same assigned subject, and every subject with the same
students, possibly in another order; it leaves every subject with the same seats and
students list as the first run did when the writes of the two runs land in the same
order.  The repository is a pair of MongoDB collections, so each `_id` occurs once. -/
theorem reset_allocate_round_trip (db : Repo) (hid : UniqueIds db) (σ₁ σ₂ : Schedule)
    (h₁ : σ₁.Valid) (h₂ : σ₂.Valid) :
    (clearSubjectsForAllStudents (assignElectives σ₁ db).1).1 =
      (clearSubjectsForAllStudents db).1 ∧
    (Fresh db →
      runLoop (clearSubjectsForAllStudents (assignElectives σ₁ db).1).1.subjects
          (sortStudents (clearSubjectsForAllStudents (assignElectives σ₁ db).1).1.students) =
        runLoop db.subjects (sortStudents db.students) ∧
      (assignElectives σ₂ (clearSubjectsForAllStudents (assignElectives σ₁ db).1).1).1.students =
        (assignElectives σ₁ db).1.students ∧
      (assignElectives σ₂ (clearSubjectsForAllStudents
          (assignElectives σ₁ db).1).1).1.subjects.map Subject.fixed =
        (assignElectives σ₁ db).1.subjects.map Subject.fixed ∧
      (∀ (j : Nat) (p q : Subject),
        (assignElectives σ₂ (clearSubjectsForAllStudents
          (assignElectives σ₁ db).1).1).1.subjects[j]? = some p →
        (assignElectives σ₁ db).1.subjects[j]? = some q → p.students.Perm q.students) ∧
      assignElectives σ₁ (clearSubjectsForAllStudents (assignElectives σ₁ db).1).1 =
        assignElectives σ₁ db) := by
  have hid' : ((assignElectives σ₁ db).1.subjects.map Subject.id).Nodup := by
    rw [map_id_of_fixed (assignElectives_subjects_fixed σ₁ db)]; exact hid.2
  have h : (clearSubjectsForAllStudents (assignElectives σ₁ db).1).1 = resetState db := by
    rw [clear_eq_resetState hid', resetState_assignElectives]
  refine ⟨by rw [h, clear_eq_resetState hid.2], fun hfresh => ?_⟩
  rw [h, resetState_of_fresh hfresh]
  refine ⟨rfl, ?_, ?_, ?_, rfl⟩
  · rw [assignElectives_students h₂ hid.1, assignElectives_students h₁ hid.1]
  · rw [assignElectives_subjects_fixed, assignElectives_subjects_fixed]
  · intro j p q hp hq
    rw [assignElectives_subjects σ₂ hid.2, List.getElem?_map] at hp
    rw [assignElectives_subjects σ₁ hid.2, List.getElem?_map] at hq
    cases hs : db.subjects[j]? with
    | none => simp [hs] at hp
    | some s₀ =>
      simp only [hs, Option.map_some', Option.some.injEq] at hp hq
      subst hp hq
      exact landOn_students_perm s₀ ((h₂.2 _).trans (h₁.2 _).symm)

/-- The round trip when two students are given the same subject and the writes of the
second run land in the opposite order. -/
theorem reset_allocate_round_trip_witness :
    (UniqueIds twoForOne ∧ Fresh twoForOne) ∧
    (assignElectives reverseOrder (clearSubjectsForAllStudents
        (assignElectives queueOrder twoForOne).1).1).1.students =
      (assignElectives queueOrder twoForOne).1.students ∧
    assignElectives queueOrder (clearSubjectsForAllStudents
        (assignElectives queueOrder twoForOne).1).1 =
      assignElectives queueOrder twoForOne :=
  ⟨by decide,
    match (reset_allocate_round_trip twoForOne (by decide) queueOrder reverseOrder
      queueOrder_valid
      reverseOrder_valid).2 (by decide) with
    | ⟨_, hstudents, _, _, hsame⟩ => ⟨hstudents, hsame⟩⟩

/-- C8. Reset idempotence: running `clearSubjectsForAllStudents` twice yields the state
that running it once yields, and that state is the reset state: every subject has
`seats = default_seats` and no students, every student has `subjects = null`, and all
other fields are as before.  The repository is a pair of MongoDB collections, so each
`_id` occurs once. -/
theorem clearSubjectsForAllStudents_idempotent (db : Repo)
    (hid : (db.subjects.map Subject.id).Nodup) :
    (clearSubjectsForAllStudents (clearSubjectsForAllStudents db).1).1 =
        (clearSubjectsForAllStudents db).1 ∧
    (clearSubjectsForAllStudents db).1 =
      { students := db.students.map (fun s => { s with subjects := none })
        subjects := db.subjects.map
          (fun s => { s with seats := s.default_seats, students := [] }) } := by
  have h1 := clear_eq_resetState hid
  have h2 : (clearSubjectsForAllStudents (resetState db)).1 = resetState (resetState db) :=
    clear_eq_resetState (by rw [resetState_subject_ids]; exact hid)
  refine ⟨by rw [h1, h2, resetState_idem], ?_⟩
  rw [h1]
  rfl

/-- Reset idempotence on a state an allocation left, which the reset does change. -/
theorem clearSubjectsForAllStudents_idempotent_witness :
    ((alreadyAllocated.subjects.map Subject.id).Nodup ∧
      (clearSubjectsForAllStudents alreadyAllocated).1 ≠ alreadyAllocated) ∧
    ((clearSubjectsForAllStudents (clearSubjectsForAllStudents alreadyAllocated).1).1 =
        (clearSubjectsForAllStudents alreadyAllocated).1 ∧
    (clearSubjectsForAllStudents alreadyAllocated).1 =
      { students := alreadyAllocated.students.map (fun s => { s with subjects := none })
        subjects := alreadyAllocated.subjects.map
          (fun s => { s with seats := s.default_seats, students := [] }) }) :=
  ⟨by decide, clearSubjectsForAllStudents_idempotent alreadyAllocated (by decide)⟩

/-- C9 (the code at the failing input). The stored hash is that of `secret`; a login with
the password `wrong` does not match it, and `loginAdmin` answers 200 with a token. -/
theorem loginAdmin_wrong_password_gets_token :
    demoCompare "wrong" "hash(secret)" = false ∧
    loginAdmin demoCompare demoSign storedAdmins "Admin@Example.com" "wrong" =
      .token 200 "jwt-for-admin-1" := by
  decide

/-- C10 (counterexample). Two students are given the same subject in one invocation:
the queue holds two writes whose target is subject 1, so the targets of the subject
writes are not pairwise distinct. -/
theorem subject_written_twice :
    (runLoop twoForOne.subjects (sortStudents twoForOne.students)).subjectUpdates =
      [⟨1, 1, 1⟩, ⟨1, 0, 2⟩] ∧
    ¬ ((runLoop twoForOne.subjects (sortStudents twoForOne.students)).subjectUpdates.map
        SubjectUpdate.id).Nodup := by
  decide

/-- C10 (amended). Among the writes one invocation of `assignElectives` queues, no student
id is the target of two student writes; the subject writes match the student writes one
for one and in order, each targeting the subject its student was given and pushing that
student, so a subject is the target of as many writes as it received students. -/
theorem queued_writes (db : Repo) (hid : (db.students.map Student.id).Nodup) :
    ((runLoop db.subjects (sortStudents db.students)).studentUpdates.map
        StudentUpdate.id).Nodup ∧
    (runLoop db.subjects (sortStudents db.students)).subjectUpdates.map
        (fun u => (u.student, u.id)) =
      (runLoop db.subjects (sortStudents db.students)).studentUpdates.map
        (fun u => (u.id, u.subjects)) := by
  refine ⟨?_, updates_paired _ _⟩
  rw [runLoop_studentUpdates]
  exact (updatesOf_ids_sublist _ _).nodup (sortStudents_ids_nodup hid)

/-- The queued writes when two students are given the same subject. -/
theorem queued_writes_witness :
    (twoForOne.students.map Student.id).Nodup ∧
    (((runLoop twoForOne.subjects (sortStudents twoForOne.students)).studentUpdates.map
        StudentUpdate.id).Nodup ∧
    (runLoop twoForOne.subjects (sortStudents twoForOne.students)).subjectUpdates.map
        (fun u => (u.student, u.id)) =
      (runLoop twoForOne.subjects (sortStudents twoForOne.students)).studentUpdates.map
        (fun u => (u.id, u.subjects))) :=
  ⟨by decide, queued_writes twoForOne (by decide)⟩

end Electives
